import Mathlib

/-!
Verification of the de Bruijn assembler (src/debruijn/debruijn.py) against its
natural-language specification.

The Python program manipulates a networkx `DiGraph` with weighted edges.  We
embed it shallowly: a graph is a list of nodes (insertion order, no
duplicates by construction) and a list of weighted edges (at most one edge
per ordered node pair by construction, mirroring networkx).  Python floats
are modelled as exact rationals; `statistics.stdev(xs) > 0` is modelled by
`sampleVariance xs > 0`, which is equivalent since the square root is
strictly monotone at 0.  Fallible library calls (`statistics.stdev` on fewer
than two data points, `graph.remove_edge` on a missing edge, `list.pop` out
of range, `statistics.mean` of an empty list, `get_edge_data` on a missing
edge, `all_simple_paths` on a missing source) are modelled with
`Except String`.  Python's global `random` generator, seeded once at import
time by `random.seed(9001)`, is external library state; it is modelled from
the spec as an explicitly threaded deterministic linear congruential
generator (the claims depend only on determinism given the seed and on the
range of each draw).
-/

namespace DebruijnTp

/-! ## Arithmetic helpers (statistics.mean, statistics.stdev, max/index) -/

/-- Arithmetic mean of a list of rationals (total; callers guard emptiness). -/
def meanQ (xs : List ℚ) : ℚ := xs.sum / (xs.length : ℚ)

/-- `statistics.mean`: raises `StatisticsError` on an empty list. -/
def meanE (xs : List ℚ) : Except String ℚ :=
  if xs.isEmpty then .error "mean requires at least one data point"
  else .ok (meanQ xs)

/-- Sample variance `Σ (x - mean)² / (n - 1)`; `none` for fewer than two data
points, where `statistics.stdev` raises.  `stdev xs > 0 ↔ sampleVariance xs > 0`. -/
def sampleVariance (xs : List ℚ) : Option ℚ :=
  if xs.length < 2 then none
  else some ((xs.map (fun x => (x - meanQ xs) ^ 2)).sum / ((xs.length : ℚ) - 1))

/-- Python `max` over a list (first maximal value). -/
def listMaxQ (xs : List ℚ) : ℚ := xs.foldl max (xs.headD 0)

/-- Python `xs.index(max(xs))`: first index holding the maximal value. -/
def idxOfMax (xs : List ℚ) : Nat := xs.findIdx (fun x => x == listMaxQ xs)

/-- All elements of the list are equal. -/
def allEqQ (xs : List ℚ) : Prop := ∀ a ∈ xs, ∀ b ∈ xs, a = b

instance (xs : List ℚ) : Decidable (allEqQ xs) := by
  unfold allEqQ; infer_instance

/-! ## The seeded pseudorandom source

Modelled from the spec: Python's `random` module (a Mersenne Twister seeded
once at process start by `random.seed(9001)`) is an external collaborator;
it is replaced by a deterministic linear congruential generator threaded
explicitly.  The claims depend only on determinism given the seed and on
`randint lo hi` landing in `[lo, hi]`. -/

structure RandGen where
  state : Nat
deriving DecidableEq, Repr

/-- One LCG step (glibc constants). -/
def RandGen.next (g : RandGen) : RandGen :=
  ⟨(1103515245 * g.state + 12345) % 2 ^ 31⟩

/-- `random.randint lo hi`: inclusive uniform draw, advancing the generator. -/
def randint (g : RandGen) (lo hi : Nat) : Nat × RandGen :=
  let g' := g.next
  (lo + g'.state % (hi - lo + 1), g')

/-- The generator as seeded at process start by `random.seed(9001)`. -/
def seededRandGen : RandGen := ⟨9001⟩

/-! ## The directed weighted graph (networkx DiGraph) -/

/-- A directed graph with rational edge weights.  `nodes` is kept in
insertion order; `edges` holds `(source, target, weight)` triples, at most
one per ordered pair when built through `addEdge`. -/
structure DiGraph where
  nodes : List String
  edges : List (String × String × ℚ)
deriving DecidableEq, Repr

namespace DiGraph

/-- `G.add_node`: a no-op if the node is already present. -/
def addNode (g : DiGraph) (n : String) : DiGraph :=
  if n ∈ g.nodes then g else { g with nodes := g.nodes ++ [n] }

/-- Whether an edge with the given endpoints is present. -/
def hasEdge (g : DiGraph) (u v : String) : Bool :=
  g.edges.any (fun e => e.1 = u ∧ e.2.1 = v)

/-- `G.add_edge u v weight=w`: adds missing endpoints as nodes and sets the
weight of the (unique) edge `u → v`, overwriting any previous weight. -/
def addEdge (g : DiGraph) (u v : String) (w : ℚ) : DiGraph :=
  let g1 := (g.addNode u).addNode v
  if g1.hasEdge u v then
    { g1 with edges := g1.edges.map (fun e => if e.1 = u ∧ e.2.1 = v then (u, v, w) else e) }
  else
    { g1 with edges := g1.edges ++ [(u, v, w)] }

/-- `G.successors u` in adjacency (edge-insertion) order. -/
def successors (g : DiGraph) (u : String) : List String :=
  (g.edges.filter (fun e => e.1 = u)).map (fun e => e.2.1)

/-- `G.predecessors v` in edge-insertion order. -/
def predecessors (g : DiGraph) (v : String) : List String :=
  (g.edges.filter (fun e => e.2.1 = v)).map (fun e => e.1)

/-- In-degree of a node. -/
def inDegree (g : DiGraph) (v : String) : Nat := (g.predecessors v).length

/-- Out-degree of a node. -/
def outDegree (g : DiGraph) (u : String) : Nat := (g.successors u).length

/-- Total degree (networkx `G.degree`): in-degree plus out-degree. -/
def degree (g : DiGraph) (n : String) : Nat := g.inDegree n + g.outDegree n

/-- `G.get_edge_data(u, v)["weight"]` as an `Option`. -/
def edgeWeight (g : DiGraph) (u v : String) : Option ℚ :=
  (g.edges.find? (fun e => e.1 = u ∧ e.2.1 = v)).map (fun e => e.2.2)

/-- `G.remove_edge u v`: raises `NetworkXError` when the edge is absent. -/
def removeEdgeE (g : DiGraph) (u v : String) : Except String DiGraph :=
  if g.hasEdge u v then
    .ok { g with edges := g.edges.filter (fun e => ¬(e.1 = u ∧ e.2.1 = v)) }
  else .error "NetworkXError: edge not in graph"

/-- `G.remove_nodes_from ns`: removes the listed nodes (missing ones are
silently ignored) together with all their incident edges. -/
def removeNodesFrom (g : DiGraph) (ns : List String) : DiGraph :=
  { nodes := g.nodes.filter (fun n => n ∉ ns),
    edges := g.edges.filter (fun e => e.1 ∉ ns ∧ e.2.1 ∉ ns) }

/-- `nx.isolates G`: nodes of total degree 0, in node order. -/
def isolates (g : DiGraph) : List String :=
  g.nodes.filter (fun n => g.degree n = 0)

/-- Number of edges of the graph. -/
def edgeCount (g : DiGraph) : Nat := g.edges.length

end DiGraph

open DiGraph

/-- The representation invariants every graph reachable through the
networkx API satisfies: each node is listed once, each (ordered) node pair
carries at most one edge, and edge endpoints are nodes of the graph. -/
def wellFormed (g : DiGraph) : Prop :=
  g.nodes.Nodup ∧
  (∀ e ∈ g.edges, e.1 ∈ g.nodes ∧ e.2.1 ∈ g.nodes) ∧
  (g.edges.map (fun e => (e.1, e.2.1))).Nodup

instance (g : DiGraph) : Decidable (wellFormed g) := by
  unfold wellFormed; infer_instance

/-! ## Simple-path enumeration (nx.all_simple_paths)

Depth-first search excluding already-visited nodes, in adjacency order.
`pref` is the (node-disjoint) prefix walked so far, `cur` the current node;
`fuel` bounds the recursion depth (a simple path visits each node at most
once, so `g.nodes.length` steps suffice). -/

def simplePathsFrom (g : DiGraph) (tgt : String) :
    Nat → List String → String → List (List String)
  | 0, _, _ => []
  | fuel + 1, pref, cur =>
    (g.successors cur).flatMap (fun nxt =>
      if nxt = tgt then [pref ++ [cur, nxt]]
      else if nxt ∈ pref ∨ nxt = cur then []
      else simplePathsFrom g tgt fuel (pref ++ [cur]) nxt)

/-- `nx.all_simple_paths g s t` as an eagerly evaluated list.  A missing
source or target (where networkx raises `NodeNotFound`) and the
`source == target` case yield the empty enumeration; call sites where the
raise matters test node membership explicitly. -/
def allSimplePaths (g : DiGraph) (s t : String) : List (List String) :=
  if s = t ∨ s ∉ g.nodes ∨ t ∉ g.nodes then []
  else simplePathsFrom g t g.nodes.length [] s

/-! ## path_average_weight -/

/-- `path_average_weight`: the mean of the weights of the edges of
`graph.subgraph(path)` — the subgraph induced by the path's *nodes*, which
contains every graph edge joining two path nodes, consecutive or not. -/
def path_average_weight (g : DiGraph) (path : List String) : Except String ℚ :=
  meanE ((g.edges.filter (fun e => e.1 ∈ path ∧ e.2.1 ∈ path)).map (fun e => e.2.2))

/-- The consecutive node pairs of a path. -/
def pathPairs (path : List String) : List (String × String) :=
  path.zip path.tail

/-- Whether `(u, v)` is a consecutive node pair of `path`. -/
def isConsecPair (path : List String) (u v : String) : Bool :=
  (pathPairs path).contains (u, v)

/-- Modelled from the spec: `pathAverageWeight` as the spec words it — the
mean of the weights of exactly the graph edges joining consecutive node
pairs along the path, no other edges contributing. -/
def specConsecAverageWeight (g : DiGraph) (path : List String) : Except String ℚ :=
  meanE ((g.edges.filter (fun e => isConsecPair path e.1 e.2.1)).map (fun e => e.2.2))

/-- The embedding of a Python `int` into the rational weight domain. -/
def intToRat (z : ℤ) : ℚ := (z : ℚ)

/-- Effectful map over a list (a Python list comprehension whose body may
raise: elements are evaluated left to right, the first exception escapes). -/
def mapExcept {α β : Type} (f : α → Except String β) : List α → Except String (List β)
  | [] => .ok []
  | x :: xs =>
    f x >>= fun y =>
    mapExcept f xs >>= fun ys =>
    .ok (y :: ys)

/-! ## remove_paths and select_best_path -/

/-- The edge-removal loop of `remove_paths` for one path: removes the edge
of every consecutive node pair, raising if one is absent. -/
def removePathEdges (g : DiGraph) : List String → Except String DiGraph
  | [] => .ok g
  | [_] => .ok g
  | u :: v :: rest => do
    let g' ← g.removeEdgeE u v
    removePathEdges g' (v :: rest)

/-- The edge-removal loop of `remove_paths` over the whole path list. -/
def removeAllEdges (g : DiGraph) : List (List String) → Except String DiGraph
  | [] => .ok g
  | p :: ps => do
    let g' ← removePathEdges g p
    removeAllEdges g' ps

/-- The node deletion `graph.remove_nodes_from([i[0] for i in path_list])`:
`path[0]` raises `IndexError` on an empty path. -/
def deleteEntryNodes (g : DiGraph) (path_list : List (List String)) :
    Except String DiGraph :=
  if path_list.any (fun p => p.isEmpty) then .error "IndexError: list index out of range"
  else .ok (g.removeNodesFrom (path_list.map (fun p => p.headD "")))

/-- The node deletion `graph.remove_nodes_from([i[-1] for i in path_list])`. -/
def deleteSinkNodes (g : DiGraph) (path_list : List (List String)) :
    Except String DiGraph :=
  if path_list.any (fun p => p.isEmpty) then .error "IndexError: list index out of range"
  else .ok (g.removeNodesFrom (path_list.map (fun p => p.getLastD "")))

/-- `remove_paths`: removes every consecutive edge of every listed path,
optionally deletes each path's first (entry) and/or last (sink) node, and
finally deletes every node of total degree 0. -/
def remove_paths (g : DiGraph) (path_list : List (List String))
    (delete_entry_node delete_sink_node : Bool) : Except String DiGraph :=
  removeAllEdges g path_list >>= fun g1 =>
  (if delete_entry_node then deleteEntryNodes g1 path_list else .ok g1) >>= fun g2 =>
  (if delete_sink_node then deleteSinkNodes g2 path_list else .ok g2) >>= fun g3 =>
  .ok (g3.removeNodesFrom g3.isolates)

/-- The index-selection logic of `select_best_path`: both standard
deviations are computed first (raising on fewer than two data points), then
the branch picks the first index of the maximal weight, else of the maximal
length, else a uniformly random index in `[0, nPaths - 1]`. -/
def selectedIndexR (rng : RandGen) (nPaths : Nat) (path_length weight_avg_list : List ℚ) :
    Except String (Nat × RandGen) :=
  match sampleVariance weight_avg_list, sampleVariance path_length with
  | none, _ => .error "StatisticsError: stdev requires at least two data points"
  | _, none => .error "StatisticsError: stdev requires at least two data points"
  | some std_weight, some std_length =>
    if 0 < std_weight then .ok (idxOfMax weight_avg_list, rng)
    else if 0 < std_length then .ok (idxOfMax path_length, rng)
    else
      let (r, rng') := randint rng 0 (nPaths - 1)
      .ok (r, rng')

/-- `select_best_path`: keeps the graph unchanged when exactly one path is
given; otherwise selects the winner's index, pops it from the path list
(raising `IndexError` if out of range, as `list.pop` would) and hands the
losers to `remove_paths`. -/
def select_best_path (rng : RandGen) (g : DiGraph) (path_list : List (List String))
    (path_length weight_avg_list : List ℚ)
    (delete_entry_node delete_sink_node : Bool) : Except String (DiGraph × RandGen) :=
  if path_list.length = 1 then .ok (g, rng)
  else do
    let (idx, rng') ← selectedIndexR rng path_list.length path_length weight_avg_list
    if path_list.length ≤ idx then .error "IndexError: pop index out of range"
    else do
      let g' ← remove_paths g (path_list.eraseIdx idx) delete_entry_node delete_sink_node
      .ok (g', rng')

/-! ## solve_bubble -/

/-- `solve_bubble`: enumerates all simple paths between the ancestor and the
descendant, computes their average weights and lengths, and calls
`select_best_path` with both endpoint-deletion flags off. -/
def solve_bubble (rng : RandGen) (g : DiGraph) (ancestor_node descendant_node : String) :
    Except String (DiGraph × RandGen) := do
  let all_paths := allSimplePaths g ancestor_node descendant_node
  let all_weigths ← mapExcept (fun path => path_average_weight g path) all_paths
  let all_length := all_paths.map (fun path => ((path.length : ℤ) - 1))
  select_best_path rng g all_paths (all_length.map intToRat) all_weigths
    false false

/-! ## Lowest common ancestor (nx.lowest_common_ancestor)

networkx first checks `is_directed_acyclic_graph(G)` and raises
`NetworkXError` on any cyclic input; on a DAG it computes
`(ancestors u ∪ {u}) ∩ (ancestors v ∪ {v})`, picks an element of the
resulting Python set, and repeatedly moves to a successor still inside the
set.  Python-set iteration order is modelled by node order; the climb
carries fuel (on the DAGs the check admits it stops on its own). -/

/-- Reachability closure: all nodes reachable from the accumulator. -/
def reachClosure (g : DiGraph) : Nat → List String → List String
  | 0, acc => acc
  | fuel + 1, acc =>
    let new := ((acc.flatMap (fun n => g.successors n)).filter (fun n => n ∉ acc)).dedup
    if new.isEmpty then acc else reachClosure g fuel (acc ++ new)

/-- `nx.is_directed_acyclic_graph`: no node reaches itself by a nonempty
directed path. -/
def is_directed_acyclic_graph (g : DiGraph) : Bool :=
  g.nodes.all (fun n => n ∉ reachClosure g g.nodes.length (g.successors n).dedup)

/-- `nx.ancestors g n`: nodes with a nonempty directed path to `n`
(excluding `n` itself), listed in node order. -/
def ancestors (g : DiGraph) (n : String) : List String :=
  g.nodes.filter (fun m => m ≠ n ∧ n ∈ reachClosure g g.nodes.length [m])

/-- The descending climb inside the common-ancestor set. -/
def lcaClimb (g : DiGraph) (common : List String) : Nat → String → String
  | 0, c => c
  | fuel + 1, c =>
    match (g.successors c).find? (fun s => s ∈ common) with
    | none => c
    | some c' => lcaClimb g common fuel c'

/-- `(ancestors u ∪ {u}) ∩ (ancestors v ∪ {v})` in node order. -/
def commonAncestors (g : DiGraph) (u v : String) : List String :=
  g.nodes.filter (fun n => n ∈ u :: ancestors g u ∧ n ∈ v :: ancestors g v)

/-- `nx.lowest_common_ancestor g u v`: raises `NetworkXError` unless the
whole graph is acyclic; `none` models the default `None` returned when the
two nodes have no common ancestor. -/
def lowest_common_ancestor (g : DiGraph) (u v : String) :
    Except String (Option String) :=
  if is_directed_acyclic_graph g then
    match commonAncestors g u v with
    | [] => .ok none
    | c :: _ => .ok (some (lcaClimb g (commonAncestors g u v) g.nodes.length c))
  else .error "NetworkXError: LCA only defined on directed acyclic graphs."

/-! ## simplify_bubbles -/

/-- The inner `for node_j in node_predecc[i + 1:]` loop: every iteration
overwrites `noeud_ancetre` with the pair's lowest common ancestor and breaks
as soon as one is found.  Returns the final `noeud_ancetre` and whether the
loop broke. -/
def scanPairs (g : DiGraph) (ni : String) :
    List String → Option String → Except String (Option String × Bool)
  | [], anc => .ok (anc, false)
  | nj :: njs, _ =>
    lowest_common_ancestor g ni nj >>= fun anc' =>
    if anc'.isSome then .ok (anc', true) else scanPairs g ni njs anc'

/-- The `for i, node_i in enumerate(node_predecc)` loop over one node's
predecessors, faithful to the source's control flow: after an unsuccessful
inner scan the loop still breaks whenever the `bubble` flag was already set
by an *earlier* node (the flag is never reset), leaving a possibly stale
`noeud_descendant` and a possibly `None` `noeud_ancetre`. -/
def scanPreds (g : DiGraph) (node : String) :
    List String → Bool × Option String × Option String →
    Except String (Bool × Option String × Option String)
  | [], st => .ok st
  | ni :: rest, (bubble, anc, desc) =>
    scanPairs g ni rest anc >>= fun pr =>
    if pr.2 then .ok (true, pr.1, some node)
    else if bubble then .ok (bubble, pr.1, desc)
    else scanPreds g node rest (bubble, pr.1, desc)

/-- The full `for node in graph` detection scan of `simplify_bubbles`
(the outer loop has no `break`; a `NetworkXError` raised by an LCA call
aborts the whole scan). -/
def scanGraph (g : DiGraph) :
    List String → Bool × Option String × Option String →
    Except String (Bool × Option String × Option String)
  | [], st => .ok st
  | node :: ns, st =>
    let node_predecc := g.predecessors node
    (if 1 < node_predecc.length then scanPreds g node node_predecc st
     else .ok st) >>= fun st' =>
    scanGraph g ns st'

/-- `simplify_bubbles`: scan, resolve the recorded bubble, recurse.  The
recursion is modelled with fuel; exhausted fuel reports an error, so a graph
on which the Python recursion never returns is one where no fuel suffices.
A scan that ends with the `bubble` flag set but `noeud_ancetre = None`
makes `nx.all_simple_paths` raise `NodeNotFound`. -/
def simplifyBubblesFuel : Nat → RandGen → DiGraph → Except String (DiGraph × RandGen)
  | 0, _, _ => .error "out of fuel"
  | fuel + 1, rng, g =>
    scanGraph g g.nodes (false, none, none) >>= fun st =>
    match st with
    | (false, _, _) => .ok (g, rng)
    | (true, none, _) => .error "NodeNotFound"
    | (true, some _, none) => .error "NodeNotFound"
    | (true, some noeud_ancetre, some noeud_descendant) =>
      solve_bubble rng g noeud_ancetre noeud_descendant >>= fun gr =>
      simplifyBubblesFuel fuel gr.2 gr.1

/-! ## solve_entry_tips and solve_out_tips -/

/-- First node (in graph order) with more than one predecessor. -/
def findMultiPredNode (g : DiGraph) : Option String :=
  g.nodes.find? (fun n => 1 < (g.predecessors n).length)

/-- First node (in graph order) with more than one successor. -/
def findMultiSuccNode (g : DiGraph) : Option String :=
  g.nodes.find? (fun n => 1 < (g.successors n).length)

/-- The per-path weight used by the tip solvers: the average weight for
paths of two or more edges, else the single edge's weight
(`graph.get_edge_data(*path)["weight"]`, a `TypeError` when unpacking does
not yield an existing edge). -/
def tipPathWeight (g : DiGraph) (p : List String) (len : ℤ) : Except String ℚ :=
  if 1 < len then path_average_weight g p
  else
    match p with
    | [u, v] =>
      match g.edgeWeight u v with
      | some w => .ok w
      | none => .error "TypeError"
    | _ => .error "TypeError"

/-- `solve_entry_tips`: find a node with in-degree > 1, gather the first
simple path from every starting node that reaches it (`nx.all_simple_paths`
raises `NodeNotFound` on a starting node no longer in the graph), select the
best path deleting losing entry nodes, recurse on the mutated graph. -/
def solveEntryTipsFuel :
    Nat → RandGen → DiGraph → List String → Except String (DiGraph × RandGen)
  | 0, _, _, _ => .error "out of fuel"
  | fuel + 1, rng, g, starting_nodes =>
    match findMultiPredNode g with
    | none => .ok (g, rng)
    | some node =>
      if starting_nodes.any (fun s => s ∉ g.nodes) then .error "NodeNotFound"
      else do
        let pathsPerStart := starting_nodes.map (fun s => allSimplePaths g s node)
        let paths := (pathsPerStart.filter (fun l => 0 < l.length)).map (fun l => l.headD [])
        let lengths := paths.map (fun p => ((p.length : ℤ) - 1))
        let weights ← mapExcept (fun pl => tipPathWeight g pl.1 pl.2) (paths.zip lengths)
        let (g', rng') ← select_best_path rng g paths
          (lengths.map intToRat) weights true false
        solveEntryTipsFuel fuel rng' g' starting_nodes

/-- `solve_out_tips`: symmetric to `solve_entry_tips`, scanning out-degree
and sink nodes and deleting losing sink nodes. -/
def solveOutTipsFuel :
    Nat → RandGen → DiGraph → List String → Except String (DiGraph × RandGen)
  | 0, _, _, _ => .error "out of fuel"
  | fuel + 1, rng, g, ending_nodes =>
    match findMultiSuccNode g with
    | none => .ok (g, rng)
    | some node =>
      if ending_nodes.any (fun e => e ∉ g.nodes) then .error "NodeNotFound"
      else do
        let pathsPerEnd := ending_nodes.map (fun e => allSimplePaths g node e)
        let paths := (pathsPerEnd.filter (fun l => 0 < l.length)).map (fun l => l.headD [])
        let lengths := paths.map (fun p => ((p.length : ℤ) - 1))
        let weights ← mapExcept (fun pl => tipPathWeight g pl.1 pl.2) (paths.zip lengths)
        let (g', rng') ← select_best_path rng g paths
          (lengths.map intToRat) weights false true
        solveOutTipsFuel fuel rng' g' ending_nodes

/-! ## Sources, sinks and contig extraction -/

/-- `get_starting_nodes`: nodes without predecessors, in node order. -/
def get_starting_nodes (g : DiGraph) : List String :=
  g.nodes.filter (fun n => (g.predecessors n).length = 0)

/-- `get_sink_nodes`: nodes without successors, in node order. -/
def get_sink_nodes (g : DiGraph) : List String :=
  g.nodes.filter (fun n => (g.successors n).length = 0)

/-- String of the characters of `s` from index `n` on (`s[n:]`). -/
def strFrom (s : String) (n : Nat) : String := String.mk (s.data.drop n)

/-- The contig assembled from one path by the source's loop: start from
`path[0]` and append `j[len(path[0]) - 1:]` for each subsequent node `j`. -/
def contigOfPath (p : List String) : String :=
  match p with
  | [] => ""
  | h :: t => t.foldl (fun acc j => acc ++ strFrom j (h.length - 1)) h

/-- Modelled from the spec: the final character of a node label. -/
def finalChar (s : String) : String := String.mk (s.data.drop (s.data.length - 1))

/-- Modelled from the spec: the contig as the spec words it — the first
node's full label followed by the final character of each subsequent node. -/
def specContigOfPath (p : List String) : String :=
  match p with
  | [] => ""
  | h :: t => t.foldl (fun acc j => acc ++ finalChar j) h

/-- `get_contigs`: for every (source, sink) pair and every simple path
between them, the assembled contig paired with its length. -/
def get_contigs (g : DiGraph) (starting_nodes ending_nodes : List String) :
    List (String × Nat) :=
  starting_nodes.flatMap (fun s =>
    ending_nodes.flatMap (fun t =>
      (allSimplePaths g s t).map (fun p => (contigOfPath p, (contigOfPath p).length))))

/-! ## K-mer counting and graph construction -/

/-- `cut_kmer`: the sliding-window substrings `read[i : i + k]`.  Python's
`range(len(read) - kmer_size + 1)` is empty when `k > len(read)`, hence the
truncation-safe `length + 1 - k`. -/
def cut_kmer (read : String) (kmer_size : Nat) : List String :=
  (List.range (read.length + 1 - kmer_size)).map
    (fun i => String.mk ((read.data.drop i).take kmer_size))

/-- One occurrence added to the k-mer dictionary (Python dict: insertion
order preserved, counts incremented in place). -/
def dictIncr (d : List (String × Nat)) (key : String) : List (String × Nat) :=
  if d.any (fun kv => kv.1 = key) then
    d.map (fun kv => if kv.1 = key then (kv.1, kv.2 + 1) else kv)
  else d ++ [(key, 1)]

/-- `build_kmer_dict` over an in-memory read list (the fastq reader is an
excluded I/O collaborator). -/
def build_kmer_dict (reads : List String) (kmer_size : Nat) : List (String × Nat) :=
  reads.foldl (fun d sequence => (cut_kmer sequence kmer_size).foldl dictIncr d) []

/-- `build_graph`: one edge per k-mer, from its length-(k-1) prefix
(`key[:-1]`) to its length-(k-1) suffix (`key[1:]`), weighted by the count. -/
def build_graph (kmer_dict : List (String × Nat)) : DiGraph :=
  kmer_dict.foldl
    (fun G kv =>
      G.addEdge (String.mk kv.1.data.dropLast) (String.mk (kv.1.data.drop 1)) (kv.2 : ℚ))
    { nodes := [], edges := [] }

/-- The whole pipeline of `main` after the k-mer dictionary is built, with
the pseudorandom source seeded at process start. -/
def runAssembly (fuel : Nat) (reads : List String) (kmer_size : Nat) :
    Except String (List (String × Nat)) := do
  let graph := build_graph (build_kmer_dict reads kmer_size)
  let (g1, r1) ← simplifyBubblesFuel fuel seededRandGen graph
  let (g2, r2) ← solveEntryTipsFuel fuel r1 g1 (get_starting_nodes g1)
  let (g3, _) ← solveOutTipsFuel fuel r2 g2 (get_sink_nodes g2)
  .ok (get_contigs g3 (get_starting_nodes g3) (get_sink_nodes g3))

/-! ## Concrete instances used by the claims -/

/-- The de Bruijn graph of the reads `AACCGGTT` and `CCGGTTAA` at k = 4. -/
def exampleGraph : DiGraph := build_graph (build_kmer_dict ["AACCGGTT", "CCGGTTAA"] 4)

/-- A graph whose two competing A→D paths share the edge A→B. -/
def sharedEdgeGraph : DiGraph :=
  { nodes := ["A", "B", "C", "D", "E"],
    edges := [("A", "B", 1), ("B", "C", 1), ("C", "D", 1), ("B", "E", 1), ("E", "D", 1)] }

/-- A graph with a chord A→C across the path A→B→C. -/
def chordGraph : DiGraph :=
  { nodes := ["A", "B", "C"],
    edges := [("A", "B", 1), ("B", "C", 1), ("A", "C", 10)] }

/-- The chordless chain A→B→C. -/
def chainGraph : DiGraph :=
  { nodes := ["A", "B", "C"],
    edges := [("A", "B", 1), ("B", "C", 3)] }

/-- An honest two-path bubble a→b→d / a→c→d with distinct weights. -/
def diamondGraph : DiGraph :=
  { nodes := ["a", "b", "d", "c"],
    edges := [("a", "b", 5), ("b", "d", 5), ("a", "c", 1), ("c", "d", 1)] }

/-- The diamond bubble after the winner [a, b, d] is kept. -/
def diamondResolved : DiGraph :=
  { nodes := ["a", "b", "d"], edges := [("a", "b", 5), ("b", "d", 5)] }

/-- The shared-edge graph after its loser path [A, B, E, D] is removed. -/
def sharedEdgeResolved : DiGraph :=
  { nodes := ["B", "C", "D"], edges := [("B", "C", 1), ("C", "D", 1)] }

/-- The two competing paths of `sharedEdgeGraph`. -/
def sharedEdgePaths : List (List String) := [["A", "B", "C", "D"], ["A", "B", "E", "D"]]

/-- The two competing paths of `diamondGraph`. -/
def diamondPaths : List (List String) := [["a", "b", "d"], ["a", "c", "d"]]

/-- A bubble anc→x→{b,c}→desc whose two anc→desc paths share the edge anc→x. -/
def sharedAncestorGraph : DiGraph :=
  { nodes := ["anc", "x", "b", "desc", "c"],
    edges := [("anc", "x", 3), ("x", "b", 6), ("b", "desc", 6), ("x", "c", 3),
              ("c", "desc", 3)] }

/-- What `solve_bubble` leaves of `sharedAncestorGraph`: the ancestor is gone. -/
def sharedAncestorResolved : DiGraph :=
  { nodes := ["x", "b", "desc"], edges := [("x", "b", 6), ("b", "desc", 6)] }

/-- A graph where node c has in-degree 2 but is fed from the single source s:
the entry-tip scan stalls on it forever. -/
def singleSourceForkGraph : DiGraph :=
  { nodes := ["s", "a", "b", "c"],
    edges := [("s", "a", 1), ("s", "b", 1), ("a", "c", 1), ("b", "c", 1)] }

/-- A genuine entry tip: two sources s1, s2 feeding m, then m→e. -/
def entryTipGraph : DiGraph :=
  { nodes := ["s1", "m", "s2", "e"],
    edges := [("s1", "m", 5), ("s2", "m", 1), ("m", "e", 1)] }

/-- A genuine out tip: m forking to two sinks t1, t2, fed by e→m. -/
def outTipGraph : DiGraph :=
  { nodes := ["e", "m", "t1", "t2"],
    edges := [("e", "m", 1), ("m", "t1", 5), ("m", "t2", 1)] }

/-- The entry-tip graph once the weaker source s2 is trimmed. -/
def entryTipResolved : DiGraph :=
  { nodes := ["s1", "m", "e"], edges := [("s1", "m", 5), ("m", "e", 1)] }

/-- The out-tip graph once the weaker sink t2 is trimmed. -/
def outTipResolved : DiGraph :=
  { nodes := ["e", "m", "t1"], edges := [("e", "m", 1), ("m", "t1", 5)] }

/-! ## Lemmas about the statistical helpers -/

lemma sum_map_sq_nonneg (xs : List ℚ) (m : ℚ) :
    0 ≤ (xs.map (fun x => (x - m) ^ 2)).sum :=
  List.sum_nonneg (fun x hx => by
    obtain ⟨y, _, rfl⟩ := List.mem_map.mp hx
    exact sq_nonneg _)

lemma sum_sq_eq_zero_iff (xs : List ℚ) (m : ℚ) :
    (xs.map (fun x => (x - m) ^ 2)).sum = 0 ↔ ∀ x ∈ xs, x = m := by
  induction xs with
  | nil => simp
  | cons a t ih =>
    simp only [List.map_cons, List.sum_cons, List.mem_cons]
    rw [add_eq_zero_iff_of_nonneg (sq_nonneg _) (sum_map_sq_nonneg t m), sq_eq_zero_iff,
      sub_eq_zero, ih]
    constructor
    · rintro ⟨h1, h2⟩ x hx
      rcases hx with rfl | hx
      · exact h1
      · exact h2 x hx
    · intro h
      exact ⟨h a (Or.inl rfl), fun x hx => h x (Or.inr hx)⟩

lemma meanQ_of_allEq {xs : List ℚ} {c : ℚ} (hne : xs ≠ []) (h : ∀ x ∈ xs, x = c) :
    meanQ xs = c := by
  have hsum : xs.sum = xs.length • c := List.sum_eq_card_nsmul xs c h
  have hlen : (xs.length : ℚ) ≠ 0 := by
    simp only [ne_eq, Nat.cast_eq_zero, List.length_eq_zero]
    exact hne
  unfold meanQ
  rw [hsum, nsmul_eq_mul]
  field_simp

lemma allEq_iff_eq_mean {xs : List ℚ} (hne : xs ≠ []) :
    allEqQ xs ↔ ∀ x ∈ xs, x = meanQ xs := by
  constructor
  · intro h x hx
    obtain ⟨a, t, rfl⟩ := List.exists_cons_of_ne_nil hne
    have hall : ∀ y ∈ a :: t, y = a := fun y hy => h y hy a (List.mem_cons_self a t)
    rw [meanQ_of_allEq hne hall]
    exact hall x hx
  · intro h x hx y hy
    rw [h x hx, h y hy]

lemma sampleVariance_pos_iff {xs : List ℚ} (h2 : 2 ≤ xs.length) {v : ℚ}
    (hv : sampleVariance xs = some v) : 0 < v ↔ ¬ allEqQ xs := by
  have hlt : ¬ (xs.length < 2) := by omega
  unfold sampleVariance at hv
  rw [if_neg hlt] at hv
  have hd : (0 : ℚ) < (xs.length : ℚ) - 1 := by
    have : (2 : ℚ) ≤ (xs.length : ℚ) := by exact_mod_cast h2
    linarith
  have hS : (0 : ℚ) ≤ (xs.map (fun x => (x - meanQ xs) ^ 2)).sum :=
    sum_map_sq_nonneg xs (meanQ xs)
  have hne : xs ≠ [] := by intro h; subst h; simp at h2
  have hiff := (sum_sq_eq_zero_iff xs (meanQ xs)).trans (allEq_iff_eq_mean hne).symm
  obtain rfl : ((xs.map (fun x => (x - meanQ xs) ^ 2)).sum / ((xs.length : ℚ) - 1)) = v :=
    by injection hv
  rw [div_pos_iff]
  constructor
  · rintro (⟨hS0, _⟩ | ⟨_, hd0⟩)
    · intro hall
      rw [← hiff] at hall
      exact absurd hall (ne_of_gt hS0)
    · exact absurd hd0 (not_lt.mpr (le_of_lt hd))
  · intro hnall
    left
    refine ⟨lt_of_le_of_ne hS ?_, hd⟩
    intro h0
    exact hnall (hiff.mp h0.symm)

/-! ## Lemmas about max and its first index -/

lemma foldl_max_eq_or_mem (l : List ℚ) (a : ℚ) : l.foldl max a = a ∨ l.foldl max a ∈ l := by
  induction l generalizing a with
  | nil => simp
  | cons b t ih =>
    simp only [List.foldl_cons, List.mem_cons]
    rcases ih (max a b) with h | h
    · rcases max_choice a b with hm | hm
      · left; rw [h, hm]
      · right; left; rw [h, hm]
    · right; right; exact h

lemma le_foldl_max (l : List ℚ) (a : ℚ) :
    a ≤ l.foldl max a ∧ ∀ x ∈ l, x ≤ l.foldl max a := by
  induction l generalizing a with
  | nil => simp
  | cons b t ih =>
    obtain ⟨h1, h2⟩ := ih (max a b)
    refine ⟨le_trans (le_max_left a b) h1, ?_⟩
    intro x hx
    rcases List.mem_cons.mp hx with rfl | hx
    · exact le_trans (le_max_right a x) h1
    · exact h2 x hx

lemma listMaxQ_mem {xs : List ℚ} (hne : xs ≠ []) : listMaxQ xs ∈ xs := by
  obtain ⟨a, t, rfl⟩ := List.exists_cons_of_ne_nil hne
  unfold listMaxQ
  rcases foldl_max_eq_or_mem (a :: t) ((a :: t).headD 0) with h | h
  · rw [h]; simp
  · exact h

lemma le_listMaxQ {xs : List ℚ} : ∀ x ∈ xs, x ≤ listMaxQ xs :=
  fun x hx => (le_foldl_max xs (xs.headD 0)).2 x hx

lemma idxOfMax_lt {xs : List ℚ} (hne : xs ≠ []) : idxOfMax xs < xs.length :=
  List.findIdx_lt_length_of_exists
    ⟨listMaxQ xs, listMaxQ_mem hne, beq_iff_eq.mpr rfl⟩

lemma getD_idxOfMax {xs : List ℚ} (hne : xs ≠ []) :
    xs.getD (idxOfMax xs) 0 = listMaxQ xs := by
  have hlt := idxOfMax_lt hne
  rw [List.getD_eq_getElem xs 0 hlt]
  exact beq_iff_eq.mp (List.findIdx_getElem (w := hlt))

lemma getD_lt_of_lt_idxOfMax {xs : List ℚ} (hne : xs ≠ []) {j : Nat}
    (hj : j < idxOfMax xs) : xs.getD j 0 < xs.getD (idxOfMax xs) 0 := by
  have hlen : j < xs.length := lt_trans hj (idxOfMax_lt hne)
  have hne' := List.not_of_lt_findIdx hj
  rw [List.getD_eq_getElem xs 0 hlen, getD_idxOfMax hne]
  refine lt_of_le_of_ne (le_listMaxQ _ (List.getElem_mem hlen)) ?_
  intro h
  rw [h] at hne'
  simp at hne'

/-- Reduction of `selectedIndexR` once both standard deviations computed. -/
lemma selectedIndexR_eq {rng : RandGen} {n : Nat} {ls ws : List ℚ} {vw vl : ℚ}
    (hw : sampleVariance ws = some vw) (hl : sampleVariance ls = some vl) :
    selectedIndexR rng n ls ws =
      if 0 < vw then .ok (idxOfMax ws, rng)
      else if 0 < vl then .ok (idxOfMax ls, rng)
      else .ok (randint rng 0 (n - 1)) := by
  unfold selectedIndexR
  rw [hw, hl]

/-! ## C1: the selection policy of select_best_path -/

/-- C1: `select_best_path` keeps the graph unchanged for a single path; with
two or more candidate paths (lengths and average weights supplied alongside),
nonzero spread of the weights selects the first index of the maximal average
weight, else nonzero spread of the lengths selects the first index of the
maximal length, else the index is the seeded generator's uniform draw over
all candidates; the index of the maximum is maximal and strictly exceeds all
earlier entries; and with weights `[5, 5, 1]` and lengths `[3, 3, 3]` the
selected index is 0 — never the weight-1 path. -/
theorem select_best_path_policy :
    (∀ rng g path_list ls ws de ds, path_list.length = 1 →
        select_best_path rng g path_list ls ws de ds = .ok (g, rng)) ∧
    (∀ rng n (ls ws : List ℚ), 2 ≤ ws.length → 2 ≤ ls.length → ¬ allEqQ ws →
        selectedIndexR rng n ls ws = .ok (idxOfMax ws, rng)) ∧
    (∀ rng n (ls ws : List ℚ), 2 ≤ ws.length → 2 ≤ ls.length →
        allEqQ ws → ¬ allEqQ ls →
        selectedIndexR rng n ls ws = .ok (idxOfMax ls, rng)) ∧
    (∀ rng n (ls ws : List ℚ), 2 ≤ ws.length → 2 ≤ ls.length →
        allEqQ ws → allEqQ ls →
        selectedIndexR rng n ls ws = .ok (randint rng 0 (n - 1)) ∧
        (1 ≤ n → (randint rng 0 (n - 1)).1 < n)) ∧
    (∀ xs : List ℚ, xs ≠ [] →
        idxOfMax xs < xs.length ∧
        (∀ j, j < xs.length → xs.getD j 0 ≤ xs.getD (idxOfMax xs) 0) ∧
        (∀ j, j < idxOfMax xs → xs.getD j 0 < xs.getD (idxOfMax xs) 0)) ∧
    (∀ rng, selectedIndexR rng 3 [3, 3, 3] [5, 5, 1] = .ok (0, rng))
    := by
  have hvar : ∀ (xs : List ℚ), 2 ≤ xs.length →
      ∃ v, sampleVariance xs = some v ∧ (0 < v ↔ ¬ allEqQ xs) := by
    intro xs h2
    have hlt : ¬ (xs.length < 2) := by omega
    refine ⟨_, by unfold sampleVariance; rw [if_neg hlt], ?_⟩
    exact sampleVariance_pos_iff h2 (by unfold sampleVariance; rw [if_neg hlt])
  refine ⟨?_, ?_, ?_, ?_, ?_, ?_⟩
  · intro rng g path_list ls ws de ds h1
    unfold select_best_path
    rw [if_pos h1]
  · intro rng n ls ws hw hl hne
    obtain ⟨vw, hvw, hiffw⟩ := hvar ws hw
    obtain ⟨vl, hvl, _⟩ := hvar ls hl
    rw [selectedIndexR_eq hvw hvl, if_pos (hiffw.mpr hne)]
  · intro rng n ls ws hw hl heq hne
    obtain ⟨vw, hvw, hiffw⟩ := hvar ws hw
    obtain ⟨vl, hvl, hiffl⟩ := hvar ls hl
    rw [selectedIndexR_eq hvw hvl, if_neg (by intro h; exact (hiffw.mp h) heq),
      if_pos (hiffl.mpr hne)]
  · intro rng n ls ws hw hl heqw heql
    obtain ⟨vw, hvw, hiffw⟩ := hvar ws hw
    obtain ⟨vl, hvl, hiffl⟩ := hvar ls hl
    constructor
    · rw [selectedIndexR_eq hvw hvl, if_neg (by intro h; exact (hiffw.mp h) heqw),
        if_neg (by intro h; exact (hiffl.mp h) heql)]
    · intro hn
      show 0 + (RandGen.next rng).state % (n - 1 - 0 + 1) < n
      have : n - 1 - 0 + 1 = n := by omega
      rw [this, Nat.zero_add]
      exact Nat.mod_lt _ (by omega)
  · intro xs hne
    refine ⟨idxOfMax_lt hne, ?_, fun j hj => getD_lt_of_lt_idxOfMax hne hj⟩
    intro j hj
    rw [getD_idxOfMax hne, List.getD_eq_getElem xs 0 hj]
    exact le_listMaxQ _ (List.getElem_mem hj)
  · intro rng
    have h1 : sampleVariance ([5, 5, 1] : List ℚ) = some (16 / 3) := by
      simp [sampleVariance, meanQ]
      norm_num
    have h2 : sampleVariance ([3, 3, 3] : List ℚ) = some 0 := by
      simp [sampleVariance, meanQ]
      norm_num
    have h3 : idxOfMax ([5, 5, 1] : List ℚ) = 0 := rfl
    rw [selectedIndexR_eq h1 h2, if_pos (by norm_num), h3]

/-- Witness for C1 at a concrete tie-free input. -/
theorem select_best_path_policy_witness :
    selectedIndexR seededRandGen 2 [1, 1] [7, 3] = .ok (0, seededRandGen) :=
  select_best_path_policy.2.1 seededRandGen 2 [1, 1] [7, 3]
    (by decide) (by decide) (by decide)

/-! ## C10: the empty-path-list call fails in the spread computation -/

/-- C10: `select_best_path` short-circuits only the exactly-one-path case:
called with an empty path list (hence zero data points for both spreads) it
raises `StatisticsError` from the standard-deviation computation, before any
mutation of the graph; with exactly one path the graph comes back unchanged. -/
theorem select_best_path_empty_raises :
    (∀ rng g de ds, select_best_path rng g [] [] [] de ds =
        .error "StatisticsError: stdev requires at least two data points") ∧
    (∀ rng g path_list ls ws de ds, path_list.length = 1 →
        select_best_path rng g path_list ls ws de ds = .ok (g, rng)) := by
  constructor
  · intro rng g de ds
    rfl
  · intro rng g path_list ls ws de ds h1
    unfold select_best_path
    rw [if_pos h1]

/-- Witness for C10's one-path conjunct at a concrete input. -/
theorem select_best_path_empty_raises_witness :
    select_best_path seededRandGen chordGraph [["A", "B"]] [1] [1] false false =
      .ok (chordGraph, seededRandGen) :=
  select_best_path_empty_raises.2 seededRandGen chordGraph [["A", "B"]] [1] [1]
    false false rfl

/-! ## C4: path_average_weight averages the induced subgraph -/

/-- C4 counterexample: on the chord graph A→B→C with extra edge A→C of weight
10, `path_average_weight` over the path [A, B, C] averages all three induced
edges and yields 4, while the spec's mean over exactly the consecutive-pair
edges yields 1. -/
theorem path_average_weight_counterexample :
    path_average_weight chordGraph ["A", "B", "C"] = .ok 4 ∧
    specConsecAverageWeight chordGraph ["A", "B", "C"] = .ok 1 ∧
    (4 : ℚ) ≠ 1 := by
  refine ⟨?_, ?_, by norm_num⟩
  · show meanE [1, 1, 10] = .ok 4
    simp only [meanE, meanQ, List.isEmpty_cons, Bool.false_eq_true, if_false,
      List.sum_cons, List.sum_nil, List.length_cons, List.length_nil]
    norm_num
  · show meanE [1, 1] = .ok 1
    simp only [meanE, meanQ, List.isEmpty_cons, Bool.false_eq_true, if_false,
      List.sum_cons, List.sum_nil, List.length_cons, List.length_nil]
    norm_num

/-- C4 (amended): `path_average_weight` returns the mean of the weights of
all edges of the subgraph induced by the path's nodes; whenever every graph
edge with both endpoints on the path joins a consecutive node pair of the
path, this is exactly the spec's mean over the consecutive-pair edges and no
other edge contributes. -/
theorem path_average_weight_consec :
    ∀ (g : DiGraph) (path : List String),
      (∀ e ∈ g.edges, (e.1 ∈ path ∧ e.2.1 ∈ path) ↔ isConsecPair path e.1 e.2.1) →
      path_average_weight g path = specConsecAverageWeight g path := by
  intro g path h
  unfold path_average_weight specConsecAverageWeight
  congr 2
  apply List.filter_congr
  intro e he
  dsimp only
  rw [Bool.eq_iff_iff]
  simp only [Bool.and_eq_true, decide_eq_true_eq]
  exact h e he

/-- Witness for C4's amended theorem on the chordless path A→B→C. -/
theorem path_average_weight_consec_witness :
    path_average_weight chainGraph ["A", "B", "C"] =
      specConsecAverageWeight chainGraph ["A", "B", "C"] :=
  path_average_weight_consec chainGraph ["A", "B", "C"] (by decide)

/-! ## Inversion of Except binds -/

lemma exceptBind_ok_iff {α β : Type} {x : Except String α} {f : α → Except String β}
    {b : β} : (x >>= f) = .ok b ↔ ∃ a, x = .ok a ∧ f a = .ok b := by
  cases x with
  | error e =>
    constructor
    · intro h
      simp [Bind.bind, Except.bind] at h
    · rintro ⟨a, ha, _⟩
      cases ha
  | ok a =>
    constructor
    · intro h
      exact ⟨a, rfl, by simpa [Bind.bind, Except.bind] using h⟩
    · rintro ⟨a2, ha, hf⟩
      injection ha with ha
      subst ha
      simpa [Bind.bind, Except.bind]

/-! ## Structure of remove_paths -/

lemma removeEdgeE_ok {g g' : DiGraph} {u v : String} (h : g.removeEdgeE u v = .ok g') :
    g'.nodes = g.nodes ∧
    g'.edges = g.edges.filter (fun e => ¬(e.1 = u ∧ e.2.1 = v)) ∧
    g.hasEdge u v = true := by
  unfold DiGraph.removeEdgeE at h
  split at h
  · injection h with h'
    subst h'
    exact ⟨rfl, rfl, by assumption⟩
  · cases h

lemma removeEdgeE_count {g g' : DiGraph} {u v : String} (h : g.removeEdgeE u v = .ok g') :
    g'.edgeCount < g.edgeCount := by
  obtain ⟨-, he, hhas⟩ := removeEdgeE_ok h
  unfold DiGraph.edgeCount
  rw [he]
  rw [List.length_filter_lt_length_iff_exists]
  unfold DiGraph.hasEdge at hhas
  obtain ⟨e, hmem, hp⟩ := List.any_eq_true.mp hhas
  refine ⟨e, hmem, ?_⟩
  simp only [decide_eq_true_eq] at hp
  simp [hp]

lemma removePathEdges_ok {p : List String} :
    ∀ {g g' : DiGraph}, removePathEdges g p = .ok g' →
      g'.nodes = g.nodes ∧
      (∀ e, e ∈ g'.edges ↔ e ∈ g.edges ∧ (e.1, e.2.1) ∉ pathPairs p) ∧
      g'.edgeCount ≤ g.edgeCount := by
  induction p with
  | nil =>
    intro g g' h
    injection h with h'
    subst h'
    simp [pathPairs]
  | cons u t ih =>
    intro g g' h
    cases t with
    | nil =>
      injection h with h'
      subst h'
      simp [pathPairs]
    | cons v rest =>
      rw [show removePathEdges g (u :: v :: rest) =
            (g.removeEdgeE u v >>= fun g1 => removePathEdges g1 (v :: rest)) from rfl,
        exceptBind_ok_iff] at h
      obtain ⟨g1, h1, h2⟩ := h
      obtain ⟨hn1, he1, -⟩ := removeEdgeE_ok h1
      obtain ⟨hn2, he2, hc2⟩ := ih h2
      have hcount1 := removeEdgeE_count h1
      refine ⟨hn2.trans hn1, ?_, le_trans hc2 (le_of_lt hcount1)⟩
      intro e
      rw [he2 e, he1, List.mem_filter]
      have hpp : pathPairs (u :: v :: rest) = (u, v) :: pathPairs (v :: rest) := rfl
      rw [hpp]
      simp only [List.mem_cons, decide_eq_true_eq]
      constructor
      · rintro ⟨⟨hmem, hne⟩, hnp⟩
        refine ⟨hmem, ?_⟩
        rintro (hp | hp)
        · apply hne
          rw [Prod.ext_iff] at hp
          exact ⟨hp.1, hp.2⟩
        · exact hnp hp
      · rintro ⟨hmem, hnp⟩
        refine ⟨⟨hmem, ?_⟩, fun hp => hnp (Or.inr hp)⟩
        rintro ⟨hu, hv⟩
        exact hnp (Or.inl (Prod.ext hu hv))

lemma removePathEdges_count_lt {p : List String} {g g' : DiGraph}
    (hlen : 2 ≤ p.length) (h : removePathEdges g p = .ok g') :
    g'.edgeCount < g.edgeCount := by
  match p, hlen with
  | u :: v :: rest, _ =>
    rw [show removePathEdges g (u :: v :: rest) =
          (g.removeEdgeE u v >>= fun g1 => removePathEdges g1 (v :: rest)) from rfl,
      exceptBind_ok_iff] at h
    obtain ⟨g1, h1, h2⟩ := h
    exact lt_of_le_of_lt (removePathEdges_ok h2).2.2 (removeEdgeE_count h1)

lemma removeAllEdges_ok {ps : List (List String)} :
    ∀ {g g' : DiGraph}, removeAllEdges g ps = .ok g' →
      g'.nodes = g.nodes ∧
      (∀ e, e ∈ g'.edges ↔ e ∈ g.edges ∧ ∀ p ∈ ps, (e.1, e.2.1) ∉ pathPairs p) ∧
      g'.edgeCount ≤ g.edgeCount := by
  induction ps with
  | nil =>
    intro g g' h
    injection h with h'
    subst h'
    simp
  | cons p pt ih =>
    intro g g' h
    rw [show removeAllEdges g (p :: pt) =
          (removePathEdges g p >>= fun g1 => removeAllEdges g1 pt) from rfl,
      exceptBind_ok_iff] at h
    obtain ⟨g1, h1, h2⟩ := h
    obtain ⟨hn1, he1, hc1⟩ := removePathEdges_ok h1
    obtain ⟨hn2, he2, hc2⟩ := ih h2
    refine ⟨hn2.trans hn1, ?_, le_trans hc2 hc1⟩
    intro e
    rw [he2 e, he1 e]
    constructor
    · rintro ⟨⟨hmem, hp⟩, hall⟩
      refine ⟨hmem, ?_⟩
      intro q hq
      rcases List.mem_cons.mp hq with rfl | hq2
      · exact hp
      · exact hall q hq2
    · rintro ⟨hmem, hall⟩
      exact ⟨⟨hmem, hall p (List.mem_cons_self p pt)⟩,
        fun q hq => hall q (List.mem_cons_of_mem p hq)⟩

lemma removeAllEdges_count_lt {ps : List (List String)} {g g' : DiGraph}
    {p : List String} (hp : p ∈ ps) (hlen : 2 ≤ p.length)
    (h : removeAllEdges g ps = .ok g') : g'.edgeCount < g.edgeCount := by
  induction ps generalizing g with
  | nil => cases hp
  | cons q qt ih =>
    rw [show removeAllEdges g (q :: qt) =
          (removePathEdges g q >>= fun g1 => removeAllEdges g1 qt) from rfl,
      exceptBind_ok_iff] at h
    obtain ⟨g1, h1, h2⟩ := h
    rcases List.mem_cons.mp hp with rfl | hp2
    · exact lt_of_le_of_lt (removeAllEdges_ok h2).2.2 (removePathEdges_count_lt hlen h1)
    · exact lt_of_lt_of_le (ih hp2 h2) (removePathEdges_ok h1).2.2

/-- Every node appearing as endpoint of an edge is not isolated. -/
lemma degree_ne_zero_of_mem_edges {g : DiGraph} {e : String × String × ℚ}
    (he : e ∈ g.edges) : g.degree e.1 ≠ 0 ∧ g.degree e.2.1 ≠ 0 := by
  constructor
  · intro h
    unfold DiGraph.degree DiGraph.inDegree DiGraph.outDegree DiGraph.successors
      DiGraph.predecessors at h
    have h2 : (g.edges.filter (fun e2 => e2.1 = e.1)).length = 0 := by
      simp only [List.length_map] at h
      omega
    rw [List.length_eq_zero, List.filter_eq_nil_iff] at h2
    exact h2 e he (by simp)
  · intro h
    unfold DiGraph.degree DiGraph.inDegree DiGraph.outDegree DiGraph.successors
      DiGraph.predecessors at h
    have h2 : (g.edges.filter (fun e2 => e2.2.1 = e.2.1)).length = 0 := by
      simp only [List.length_map] at h
      omega
    rw [List.length_eq_zero, List.filter_eq_nil_iff] at h2
    exact h2 e he (by simp)

/-- A node of degree 0 has no incident edges. -/
lemma no_incident_of_degree_zero {g : DiGraph} {n : String} (h : g.degree n = 0) :
    ∀ e ∈ g.edges, e.1 ≠ n ∧ e.2.1 ≠ n := by
  intro e he
  constructor
  · intro hn
    exact (degree_ne_zero_of_mem_edges he).1 (hn ▸ h)
  · intro hn
    exact (degree_ne_zero_of_mem_edges he).2 (hn ▸ h)

/-- Deleting the isolated nodes leaves the edge list unchanged. -/
lemma removeIsolates_edges (g : DiGraph) :
    (g.removeNodesFrom g.isolates).edges = g.edges := by
  unfold DiGraph.removeNodesFrom
  apply List.filter_eq_self.mpr
  intro e he
  simp only [decide_eq_true_eq]
  unfold DiGraph.isolates
  constructor
  · intro hmem
    rw [List.mem_filter] at hmem
    have := (degree_ne_zero_of_mem_edges he).1
    simp only [decide_eq_true_eq] at hmem
    exact this hmem.2
  · intro hmem
    rw [List.mem_filter] at hmem
    have := (degree_ne_zero_of_mem_edges he).2
    simp only [decide_eq_true_eq] at hmem
    exact this hmem.2

/-- Degrees only depend on the edge list. -/
lemma degree_congr {g1 g2 : DiGraph} (h : g1.edges = g2.edges) (n : String) :
    g1.degree n = g2.degree n := by
  unfold DiGraph.degree DiGraph.inDegree DiGraph.outDegree DiGraph.successors
    DiGraph.predecessors
  rw [h]

/-- Membership in the node list after deleting the isolated nodes. -/
lemma removeIsolates_nodes {g : DiGraph} {n : String} :
    n ∈ (g.removeNodesFrom g.isolates).nodes ↔ n ∈ g.nodes ∧ g.degree n ≠ 0 := by
  unfold DiGraph.removeNodesFrom DiGraph.isolates
  rw [List.mem_filter]
  simp only [decide_eq_true_eq, List.mem_filter]
  constructor
  · rintro ⟨hmem, hni⟩
    refine ⟨hmem, ?_⟩
    intro h0
    exact hni ⟨hmem, by simpa using h0⟩
  · rintro ⟨hmem, hnz⟩
    refine ⟨hmem, ?_⟩
    rintro ⟨-, h0⟩
    exact hnz (by simpa using h0)

/-- A node of degree 0 given that no edge is incident to it. -/
lemma degree_eq_zero_of_no_incident {g : DiGraph} {n : String}
    (h : ∀ e ∈ g.edges, e.1 ≠ n ∧ e.2.1 ≠ n) : g.degree n = 0 := by
  unfold DiGraph.degree DiGraph.inDegree DiGraph.outDegree DiGraph.successors
    DiGraph.predecessors
  have h1 : g.edges.filter (fun e => e.2.1 = n) = [] :=
    List.filter_eq_nil_iff.mpr (fun e he => by simpa using (h e he).2)
  have h2 : g.edges.filter (fun e => e.1 = n) = [] :=
    List.filter_eq_nil_iff.mpr (fun e he => by simpa using (h e he).1)
  rw [h1, h2]
  simp

lemma mem_removeNodesFrom_nodes {g : DiGraph} {ns : List String} {n : String} :
    n ∈ (g.removeNodesFrom ns).nodes ↔ n ∈ g.nodes ∧ n ∉ ns := by
  unfold DiGraph.removeNodesFrom
  rw [List.mem_filter]
  simp

lemma removeNodesFrom_nodes_subset (g : DiGraph) (ns : List String) :
    (g.removeNodesFrom ns).nodes ⊆ g.nodes := (List.filter_sublist _).subset

lemma removeNodesFrom_edges_subset (g : DiGraph) (ns : List String) :
    (g.removeNodesFrom ns).edges ⊆ g.edges := (List.filter_sublist _).subset

lemma deleteEntryNodes_ok {g g' : DiGraph} {ps : List (List String)}
    (h : deleteEntryNodes g ps = .ok g') :
    g' = g.removeNodesFrom (ps.map (fun p => p.headD "")) := by
  unfold deleteEntryNodes at h
  by_cases hc : (ps.any (fun p => p.isEmpty)) = true
  · rw [if_pos hc] at h
    cases h
  · rw [if_neg hc] at h
    injection h with h
    exact h.symm

lemma deleteSinkNodes_ok {g g' : DiGraph} {ps : List (List String)}
    (h : deleteSinkNodes g ps = .ok g') :
    g' = g.removeNodesFrom (ps.map (fun p => p.getLastD "")) := by
  unfold deleteSinkNodes at h
  by_cases hc : (ps.any (fun p => p.isEmpty)) = true
  · rw [if_pos hc] at h
    cases h
  · rw [if_neg hc] at h
    injection h with h
    exact h.symm

/-- Decomposition of a successful `remove_paths` run into its stages. -/
lemma remove_paths_stages {g : DiGraph} {ps : List (List String)} {de ds : Bool}
    {g' : DiGraph} (h : remove_paths g ps de ds = .ok g') :
    ∃ g1 g3, removeAllEdges g ps = .ok g1 ∧
      g' = g3.removeNodesFrom g3.isolates ∧
      g3.nodes ⊆ g1.nodes ∧ g3.edges ⊆ g1.edges ∧
      (de = false → ds = false → g3 = g1) ∧
      (de = true → ∀ p ∈ ps, p.headD "" ∉ g3.nodes) ∧
      (ds = true → ∀ p ∈ ps, p.getLastD "" ∉ g3.nodes) := by
  unfold remove_paths at h
  rw [exceptBind_ok_iff] at h
  obtain ⟨g1, h1, h⟩ := h
  rw [exceptBind_ok_iff] at h
  obtain ⟨g2, hde, h⟩ := h
  rw [exceptBind_ok_iff] at h
  obtain ⟨g3, hds, h⟩ := h
  injection h with h
  subst h
  refine ⟨g1, g3, h1, rfl, ?_⟩
  cases de
  · injection hde with hde
    subst hde
    cases ds
    · injection hds with hds
      subst hds
      exact ⟨fun _ hx => hx, fun _ hx => hx, fun _ _ => rfl, by simp, by simp⟩
    · obtain rfl := deleteSinkNodes_ok hds
      refine ⟨removeNodesFrom_nodes_subset _ _, removeNodesFrom_edges_subset _ _,
        by simp, by simp, ?_⟩
      intro _ p hp
      rw [mem_removeNodesFrom_nodes]
      rintro ⟨-, hnot⟩
      exact hnot (List.mem_map_of_mem _ hp)
  · obtain rfl := deleteEntryNodes_ok hde
    cases ds
    · injection hds with hds
      subst hds
      refine ⟨removeNodesFrom_nodes_subset _ _, removeNodesFrom_edges_subset _ _,
        by simp, ?_, by simp⟩
      intro _ p hp
      rw [mem_removeNodesFrom_nodes]
      rintro ⟨-, hnot⟩
      exact hnot (List.mem_map_of_mem _ hp)
    · obtain rfl := deleteSinkNodes_ok hds
      refine ⟨fun x hx => removeNodesFrom_nodes_subset _ _
          (removeNodesFrom_nodes_subset _ _ hx),
        fun x hx => removeNodesFrom_edges_subset _ _
          (removeNodesFrom_edges_subset _ _ hx), by simp, ?_, ?_⟩
      · intro _ p hp
        rw [mem_removeNodesFrom_nodes, mem_removeNodesFrom_nodes]
        rintro ⟨⟨-, hnot⟩, -⟩
        exact hnot (List.mem_map_of_mem _ hp)
      · intro _ p hp
        rw [mem_removeNodesFrom_nodes]
        rintro ⟨-, hnot⟩
        exact hnot (List.mem_map_of_mem _ hp)

/-- After a successful `remove_paths`, no node of the result has degree 0. -/
lemma remove_paths_no_degree_zero {g : DiGraph} {ps : List (List String)}
    {de ds : Bool} {g' : DiGraph} (h : remove_paths g ps de ds = .ok g') :
    ∀ n ∈ g'.nodes, g'.degree n ≠ 0 := by
  obtain ⟨g1, g3, -, rfl, -, -, -, -, -⟩ := remove_paths_stages h
  intro n hn
  rw [removeIsolates_nodes] at hn
  rw [degree_congr (removeIsolates_edges g3) n]
  exact hn.2

/-- After a successful `remove_paths`, every node isolated in the original
graph — whether or not it occurs in a path — is gone. -/
lemma remove_paths_kills_isolated {g : DiGraph} {ps : List (List String)}
    {de ds : Bool} {g' : DiGraph} (h : remove_paths g ps de ds = .ok g')
    {n : String} (h0 : g.degree n = 0) : n ∉ g'.nodes := by
  obtain ⟨g1, g3, h1, rfl, -, he31, -, -, -⟩ := remove_paths_stages h
  intro hn
  rw [removeIsolates_nodes] at hn
  apply hn.2
  apply degree_eq_zero_of_no_incident
  intro e he
  exact no_incident_of_degree_zero h0 e
    (((removeAllEdges_ok h1).2.1 e).mp (he31 he)).1

/-- Inversion of a successful `select_best_path` run with several paths. -/
lemma select_best_path_ok {rng : RandGen} {g : DiGraph} {ps : List (List String)}
    {ls ws : List ℚ} {de ds : Bool} {g' : DiGraph} {rng' : RandGen}
    (hn : ps.length ≠ 1)
    (h : select_best_path rng g ps ls ws de ds = .ok (g', rng')) :
    ∃ idx, selectedIndexR rng ps.length ls ws = .ok (idx, rng') ∧ idx < ps.length ∧
      remove_paths g (ps.eraseIdx idx) de ds = .ok g' := by
  unfold select_best_path at h
  rw [if_neg hn, exceptBind_ok_iff] at h
  obtain ⟨⟨idx, rng2⟩, hsel, h⟩ := h
  dsimp only at h
  split at h
  · cases h
  · rw [exceptBind_ok_iff] at h
    obtain ⟨g2, hrp, hok⟩ := h
    injection hok with hok
    injection hok with hg hr
    subst hg
    subst hr
    exact ⟨idx, hsel, by omega, hrp⟩

/-- Closed form of the sample variance of a two-element list. -/
lemma sampleVariance_pair (a b : ℚ) :
    sampleVariance [a, b] = some ((a - b) ^ 2 / 2) := by
  unfold sampleVariance
  rw [if_neg (by norm_num)]
  congr 1
  unfold meanQ
  simp only [List.sum_cons, List.sum_nil, List.length_cons, List.length_nil,
    List.map_cons, List.map_nil]
  push_cast
  ring

/-! ## C2: what select_best_path removes -/

/-- C2 (amended): with two or more candidate paths, a successful
`select_best_path` removes from the edge set the consecutive edges of every
losing path — including any such edge shared with the winning path, whose
edges are therefore only guaranteed to survive when disjoint from the losers;
with both deletion flags off these are exactly the removed edges; with
`delete_entry_node` (resp. `delete_sink_node`) set the first (resp. last)
node of each losing path is deleted; and the returned graph contains no node
of total degree 0. -/
theorem select_best_path_removes_losers :
    ∀ (rng : RandGen) (g : DiGraph) (ps : List (List String)) (ls ws : List ℚ)
      (de ds : Bool) (g' : DiGraph) (rng' : RandGen),
      2 ≤ ps.length →
      select_best_path rng g ps ls ws de ds = .ok (g', rng') →
      ∃ idx, idx < ps.length ∧ selectedIndexR rng ps.length ls ws = .ok (idx, rng') ∧
        (∀ n ∈ g'.nodes, g'.degree n ≠ 0) ∧
        (∀ e ∈ g'.edges, e ∈ g.edges ∧
          ∀ p ∈ ps.eraseIdx idx, (e.1, e.2.1) ∉ pathPairs p) ∧
        (de = false → ds = false →
          ∀ e ∈ g.edges, (∀ p ∈ ps.eraseIdx idx, (e.1, e.2.1) ∉ pathPairs p) →
            e ∈ g'.edges) ∧
        (de = true → ∀ p ∈ ps.eraseIdx idx, p.headD "" ∉ g'.nodes) ∧
        (ds = true → ∀ p ∈ ps.eraseIdx idx, p.getLastD "" ∉ g'.nodes) := by
  intro rng g ps ls ws de ds g' rng' h2 h
  obtain ⟨idx, hsel, hlt, hrp⟩ := select_best_path_ok (by omega) h
  obtain ⟨g1, g3, h1, hiso, hn31, he31, hff, hhead, hlast⟩ := remove_paths_stages hrp
  have hedges : g'.edges = g3.edges := by
    rw [hiso]
    exact removeIsolates_edges g3
  have hnodes : g'.nodes ⊆ g3.nodes := by
    rw [hiso]
    exact removeNodesFrom_nodes_subset _ _
  refine ⟨idx, hlt, hsel, remove_paths_no_degree_zero hrp, ?_, ?_, ?_, ?_⟩
  · intro e he
    rw [hedges] at he
    exact ((removeAllEdges_ok h1).2.1 e).mp (he31 he)
  · intro hde hds e he hall
    subst hde
    subst hds
    rw [hedges, hff rfl rfl]
    exact ((removeAllEdges_ok h1).2.1 e).mpr ⟨he, hall⟩
  · intro hde p hp
    intro hmem
    exact hhead hde p hp (hnodes hmem)
  · intro hds p hp
    intro hmem
    exact hlast hds p hp (hnodes hmem)

/-- C2 counterexample: both A→D paths share the edge A→B; selecting the
heavier path [A,B,C,D] removes the loser [A,B,E,D], whose edge removal also
deletes the winner's edge A→B (and then the isolated nodes A and E), so an
edge of the single winning path does not remain in the returned graph. -/
theorem select_best_path_removes_losers_counterexample :
    select_best_path seededRandGen sharedEdgeGraph sharedEdgePaths
        [3, 3] [10, 1] false false = .ok (sharedEdgeResolved, seededRandGen) ∧
    isConsecPair ["A", "B", "C", "D"] "A" "B" = true ∧
    sharedEdgeGraph.hasEdge "A" "B" = true ∧
    sharedEdgeResolved.hasEdge "A" "B" = false := by
  refine ⟨?_, rfl, rfl, rfl⟩
  have h1 : sampleVariance ([10, 1] : List ℚ) = some (81 / 2) := by
    rw [sampleVariance_pair]
    norm_num
  have h2 : sampleVariance ([3, 3] : List ℚ) = some 0 := by
    rw [sampleVariance_pair]
    norm_num
  have hsel : selectedIndexR seededRandGen sharedEdgePaths.length [3, 3] [10, 1] =
      .ok (0, seededRandGen) := by
    rw [selectedIndexR_eq h1 h2, if_pos (by norm_num)]
    rfl
  unfold select_best_path
  rw [if_neg (by decide), hsel]
  rfl

/-- Witness for C2 on the honest diamond bubble. -/
theorem select_best_path_removes_losers_witness :
    ∃ idx, idx < diamondPaths.length ∧
      selectedIndexR seededRandGen diamondPaths.length [2, 2] [5, 1] =
        .ok (idx, seededRandGen) ∧
      (∀ n ∈ diamondResolved.nodes, diamondResolved.degree n ≠ 0) ∧
      (∀ e ∈ diamondResolved.edges, e ∈ diamondGraph.edges ∧
        ∀ p ∈ diamondPaths.eraseIdx idx, (e.1, e.2.1) ∉ pathPairs p) ∧
      (false = false → false = false →
        ∀ e ∈ diamondGraph.edges,
          (∀ p ∈ diamondPaths.eraseIdx idx, (e.1, e.2.1) ∉ pathPairs p) →
          e ∈ diamondResolved.edges) ∧
      (false = true →
        ∀ p ∈ diamondPaths.eraseIdx idx, p.headD "" ∉ diamondResolved.nodes) ∧
      (false = true →
        ∀ p ∈ diamondPaths.eraseIdx idx, p.getLastD "" ∉ diamondResolved.nodes) := by
  have h1 : sampleVariance ([5, 1] : List ℚ) = some 8 := by
    rw [sampleVariance_pair]
    norm_num
  have h2 : sampleVariance ([2, 2] : List ℚ) = some 0 := by
    rw [sampleVariance_pair]
    norm_num
  have hsel : selectedIndexR seededRandGen diamondPaths.length [2, 2] [5, 1] =
      .ok (0, seededRandGen) := by
    rw [selectedIndexR_eq h1 h2, if_pos (by norm_num)]
    rfl
  have hok : select_best_path seededRandGen diamondGraph diamondPaths
      [2, 2] [5, 1] false false = .ok (diamondResolved, seededRandGen) := by
    unfold select_best_path
    rw [if_neg (by decide), hsel]
    rfl
  exact select_best_path_removes_losers seededRandGen diamondGraph diamondPaths
    [2, 2] [5, 1] false false diamondResolved seededRandGen (by decide) hok

/-! ## C9: remove_paths deletes every node of total degree 0 -/

/-- C9: `remove_paths` deletes every node whose total degree is 0 in the
resulting graph — including nodes that were isolated before the call and
belong to none of the given paths — so the returned graph has no node of
total degree 0, and any node isolated beforehand is gone. -/
theorem remove_paths_removes_all_isolated :
    ∀ (g : DiGraph) (ps : List (List String)) (de ds : Bool) (g' : DiGraph),
      remove_paths g ps de ds = .ok g' →
      (∀ n, g.degree n = 0 → n ∉ g'.nodes) ∧
      (∀ n ∈ g'.nodes, g'.degree n ≠ 0) :=
  fun _ _ _ _ _ h =>
    ⟨fun _ h0 => remove_paths_kills_isolated h h0, remove_paths_no_degree_zero h⟩

/-- Witness for C9: removing no path at all still deletes the pre-isolated
node Z. -/
theorem remove_paths_removes_all_isolated_witness :
    "Z" ∉ (({ nodes := ["A", "B"], edges := [("A", "B", 1)] } : DiGraph)).nodes :=
  (remove_paths_removes_all_isolated
    { nodes := ["A", "B", "Z"], edges := [("A", "B", 1)] } [] false false
    { nodes := ["A", "B"], edges := [("A", "B", 1)] } rfl).1 "Z" (by decide)

/-! ## C6: contig extraction -/

lemma foldl_append_congr {α : Type} (f f2 : α → String) :
    ∀ (t : List α) (acc : String), (∀ j ∈ t, f j = f2 j) →
      t.foldl (fun a j => a ++ f j) acc = t.foldl (fun a j => a ++ f2 j) acc := by
  intro t
  induction t with
  | nil => intro acc _; rfl
  | cons j t2 ih =>
    intro acc h
    simp only [List.foldl_cons]
    rw [h j (List.mem_cons_self j t2)]
    exact ih _ (fun x hx => h x (List.mem_cons_of_mem j hx))

/-- When every later node label has the first label's length, the source's
per-path assembly appends exactly each node's final character. -/
lemma contigOfPath_eq_spec {p : List String}
    (h : ∀ j ∈ p.tail, j.length = (p.headD "").length) :
    contigOfPath p = specContigOfPath p := by
  cases p with
  | nil => rfl
  | cons hd t =>
    unfold contigOfPath specContigOfPath
    apply foldl_append_congr
    intro j hj
    have hlen : j.length = hd.length := h j hj
    unfold strFrom finalChar
    rw [show j.data.length = j.length from rfl, hlen]

/-- C6: every simple path enumerated between a listed source and a listed
sink contributes the contig made of the first node's full label followed by
each subsequent node's final character (given the uniform label length of a
de Bruijn graph), paired with its length; and on the graph built with k = 4
from the reads AACCGGTT and CCGGTTAA, extraction yields exactly the single
contig AACCGGTTAA of length 10. -/
theorem get_contigs_spec :
    (∀ (g : DiGraph) (starting_nodes ending_nodes : List String) (s t : String)
        (p : List String),
        s ∈ starting_nodes → t ∈ ending_nodes → p ∈ allSimplePaths g s t →
        (∀ j ∈ p.tail, j.length = (p.headD "").length) →
        (specContigOfPath p, (specContigOfPath p).length) ∈
          get_contigs g starting_nodes ending_nodes) ∧
    get_contigs exampleGraph (get_starting_nodes exampleGraph)
        (get_sink_nodes exampleGraph) = [("AACCGGTTAA", 10)] := by
  constructor
  · intro g starting_nodes ending_nodes s t p hs ht hp hlen
    unfold get_contigs
    rw [List.mem_flatMap]
    refine ⟨s, hs, ?_⟩
    rw [List.mem_flatMap]
    refine ⟨t, ht, ?_⟩
    rw [List.mem_map]
    exact ⟨p, hp, by rw [contigOfPath_eq_spec hlen]⟩
  · rfl

/-- Witness for C6's per-path statement on the chain A→B→C. -/
theorem get_contigs_spec_witness :
    ("ABC", 3) ∈ get_contigs chainGraph ["A"] ["C"] := by
  have h := get_contigs_spec.1 chainGraph ["A"] ["C"] "A" "C" ["A", "B", "C"]
    (by decide) (by decide) (by decide) (by decide)
  simpa using h

/-! ## Soundness of the simple-path enumeration -/

lemma mem_successors {g : DiGraph} {u v : String} :
    v ∈ g.successors u ↔ ∃ w, (u, v, w) ∈ g.edges := by
  unfold DiGraph.successors
  rw [List.mem_map]
  constructor
  · rintro ⟨⟨a, b, w⟩, he, rfl⟩
    rw [List.mem_filter] at he
    obtain ⟨hmem, hdec⟩ := he
    simp only [decide_eq_true_eq] at hdec
    subst hdec
    exact ⟨w, hmem⟩
  · rintro ⟨w, hw⟩
    exact ⟨(u, v, w), List.mem_filter.mpr ⟨hw, by simp⟩, rfl⟩

/-- Every path emitted by the DFS extends the visited prefix by at least
one step, walks real edges, ends at the target and repeats no node. -/
lemma simplePathsFrom_sound {g : DiGraph} {tgt : String} :
    ∀ (fuel : Nat) (pref : List String) (cur : String),
      (pref ++ [cur]).Nodup → tgt ∉ pref ++ [cur] →
      ∀ p ∈ simplePathsFrom g tgt fuel pref cur,
        ∃ rest, p = pref ++ cur :: rest ∧ rest ≠ [] ∧
          List.Chain' (fun u v => ∃ w, (u, v, w) ∈ g.edges) (cur :: rest) ∧
          (cur :: rest).getLast? = some tgt ∧
          (pref ++ cur :: rest).Nodup := by
  intro fuel
  induction fuel with
  | zero =>
    intro pref cur _ _ p hp
    cases hp
  | succ fuel ih =>
    intro pref cur hnd htgt p hp
    unfold simplePathsFrom at hp
    rw [List.mem_flatMap] at hp
    obtain ⟨nxt, hsucc, hp⟩ := hp
    by_cases heq : nxt = tgt
    · rw [if_pos heq] at hp
      subst heq
      rw [List.mem_singleton] at hp
      subst hp
      refine ⟨[nxt], by simp, by simp, ?_, by simp, ?_⟩
      · exact List.chain'_pair.mpr (mem_successors.mp hsucc)
      · rw [show pref ++ [cur, nxt] = (pref ++ [cur]) ++ [nxt] from by simp]
        exact List.Nodup.append hnd (List.nodup_singleton nxt)
          (List.disjoint_singleton.mpr htgt)
    · rw [if_neg heq] at hp
      by_cases hvis : nxt ∈ pref ∨ nxt = cur
      · rw [if_pos hvis] at hp
        cases hp
      · rw [if_neg hvis] at hp
        push_neg at hvis
        have hnd' : ((pref ++ [cur]) ++ [nxt]).Nodup :=
          List.Nodup.append hnd (List.nodup_singleton nxt)
            (List.disjoint_singleton.mpr (by
              intro hmem
              rcases List.mem_append.mp hmem with hmem | hmem
              · exact hvis.1 hmem
              · exact hvis.2 (List.mem_singleton.mp hmem)))
        have htgt' : tgt ∉ (pref ++ [cur]) ++ [nxt] := by
          intro hmem
          rcases List.mem_append.mp hmem with hmem | hmem
          · exact htgt hmem
          · exact heq (List.mem_singleton.mp hmem).symm
        obtain ⟨rest, hpe, -, hch, hlast, hnodup⟩ :=
          ih (pref ++ [cur]) nxt hnd' htgt' p hp
        refine ⟨nxt :: rest, ?_, by simp, ?_, ?_, ?_⟩
        · rw [hpe]
          simp
        · exact List.chain'_cons.mpr ⟨mem_successors.mp hsucc, hch⟩
        · rw [List.getLast?_cons_cons]
          exact hlast
        · rw [show pref ++ cur :: nxt :: rest = (pref ++ [cur]) ++ nxt :: rest from by simp]
          exact hnodup

/-- Every path returned by `allSimplePaths g a d` starts at `a`, ends at
`d`, has at least one edge, walks real edges and repeats no node. -/
lemma allSimplePaths_sound {g : DiGraph} {a d : String} {p : List String}
    (hp : p ∈ allSimplePaths g a d) :
    ∃ rest, p = a :: rest ∧ rest ≠ [] ∧
      List.Chain' (fun u v => ∃ w, (u, v, w) ∈ g.edges) p ∧
      p.getLast? = some d ∧ p.Nodup := by
  unfold allSimplePaths at hp
  split at hp
  · cases hp
  · rename_i hcond
    push_neg at hcond
    obtain ⟨hne, -, -⟩ := hcond
    have hsnd := simplePathsFrom_sound g.nodes.length [] a (by simp)
      (by simpa using fun h => hne h.symm) p hp
    obtain ⟨rest, hpe, hne2, hch, hlast, hnodup⟩ := hsnd
    simp only [List.nil_append] at hpe hnodup
    refine ⟨rest, hpe, hne2, ?_, ?_, ?_⟩
    · rw [hpe]
      exact hch
    · rw [hpe]
      exact hlast
    · rw [hpe]
      exact hnodup

/-! ## C5: the tip solvers -/

lemma solveEntryTips_indeg :
    ∀ (fuel : Nat) {rng : RandGen} {g : DiGraph} {ss : List String} {g' : DiGraph}
      {rng' : RandGen}, solveEntryTipsFuel fuel rng g ss = .ok (g', rng') →
      ∀ n ∈ g'.nodes, g'.inDegree n ≤ 1 := by
  intro fuel
  induction fuel with
  | zero =>
    intro rng g ss g' rng' h
    cases h
  | succ fuel ih =>
    intro rng g ss g' rng' h
    unfold solveEntryTipsFuel at h
    cases hfind : findMultiPredNode g with
    | none =>
      rw [hfind] at h
      dsimp only at h
      injection h with h
      injection h with hg hr
      subst hg
      intro n hn
      unfold findMultiPredNode at hfind
      have := List.find?_eq_none.mp hfind n hn
      simp only [decide_eq_true_eq, not_lt] at this
      exact this
    | some node =>
      rw [hfind] at h
      dsimp only at h
      split at h
      · cases h
      · rw [exceptBind_ok_iff] at h
        obtain ⟨ws, -, h⟩ := h
        rw [exceptBind_ok_iff] at h
        obtain ⟨⟨g2, rng2⟩, -, h⟩ := h
        exact ih h

lemma solveOutTips_outdeg :
    ∀ (fuel : Nat) {rng : RandGen} {g : DiGraph} {es : List String} {g' : DiGraph}
      {rng' : RandGen}, solveOutTipsFuel fuel rng g es = .ok (g', rng') →
      ∀ n ∈ g'.nodes, g'.outDegree n ≤ 1 := by
  intro fuel
  induction fuel with
  | zero =>
    intro rng g es g' rng' h
    cases h
  | succ fuel ih =>
    intro rng g es g' rng' h
    unfold solveOutTipsFuel at h
    cases hfind : findMultiSuccNode g with
    | none =>
      rw [hfind] at h
      dsimp only at h
      injection h with h
      injection h with hg hr
      subst hg
      intro n hn
      unfold findMultiSuccNode at hfind
      have := List.find?_eq_none.mp hfind n hn
      simp only [decide_eq_true_eq, not_lt] at this
      exact this
    | some node =>
      rw [hfind] at h
      dsimp only at h
      split at h
      · cases h
      · rw [exceptBind_ok_iff] at h
        obtain ⟨ws, -, h⟩ := h
        rw [exceptBind_ok_iff] at h
        obtain ⟨⟨g2, rng2⟩, -, h⟩ := h
        exact ih h

/-- C5 (amended): whenever `solve_entry_tips` returns a graph, every node of
it has in-degree at most 1 — in particular no node with in-degree > 1 is fed
by any pair of distinct starting nodes — and symmetrically every node of a
graph returned by `solve_out_tips` has out-degree at most 1; but the solvers
do not terminate on every finite graph: on `singleSourceForkGraph`, whose
node c has in-degree 2 but candidate paths from only the single source s,
each pass hands `select_best_path` one path, gets the graph back unchanged
and recurses forever. -/
theorem solve_tips_postcondition :
    (∀ (fuel : Nat) (rng : RandGen) (g : DiGraph) (ss : List String)
        (g' : DiGraph) (rng' : RandGen),
        solveEntryTipsFuel fuel rng g ss = .ok (g', rng') →
        ∀ n ∈ g'.nodes, g'.inDegree n ≤ 1) ∧
    (∀ (fuel : Nat) (rng : RandGen) (g : DiGraph) (es : List String)
        (g' : DiGraph) (rng' : RandGen),
        solveOutTipsFuel fuel rng g es = .ok (g', rng') →
        ∀ n ∈ g'.nodes, g'.outDegree n ≤ 1) ∧
    (∀ (fuel : Nat) (rng : RandGen),
        solveEntryTipsFuel (fuel + 1) rng singleSourceForkGraph ["s"] =
          solveEntryTipsFuel fuel rng singleSourceForkGraph ["s"]) :=
  ⟨fun fuel _ _ _ _ _ h => solveEntryTips_indeg fuel h,
   fun fuel _ _ _ _ _ h => solveOutTips_outdeg fuel h,
   fun _ _ => rfl⟩

/-- Witness for C5 on graphs with one genuine entry tip and one genuine out
tip. -/
theorem solve_tips_postcondition_witness :
    (∀ n ∈ chainGraph.nodes, chainGraph.inDegree n ≤ 1) ∧
    (∀ n ∈ chainGraph.nodes, chainGraph.outDegree n ≤ 1) :=
  ⟨solve_tips_postcondition.1 1 seededRandGen chainGraph ["A"] chainGraph
    seededRandGen rfl,
   solve_tips_postcondition.2.1 1 seededRandGen chainGraph ["C"] chainGraph
    seededRandGen rfl⟩

/-- C5 counterexample: on `singleSourceForkGraph` with the single starting
node s, `solve_entry_tips` finds the in-degree-2 node c, gathers exactly one
candidate path, gets the graph back unchanged from `select_best_path`, and
recurses on the identical state: 20 units of fuel are exhausted without
returning. -/
theorem solve_entry_tips_nontermination :
    solveEntryTipsFuel 20 seededRandGen singleSourceForkGraph ["s"] =
      .error "out of fuel" ∧
    findMultiPredNode singleSourceForkGraph = some "c" ∧
    allSimplePaths singleSourceForkGraph "s" "c" = [["s", "a", "c"], ["s", "b", "c"]] ∧
    select_best_path seededRandGen singleSourceForkGraph [["s", "a", "c"]] [2] [1]
      true false = .ok (singleSourceForkGraph, seededRandGen) :=
  ⟨rfl, rfl, rfl, rfl⟩

/-! ## C3: simplify_bubbles -/

/-- Forward computation of `select_best_path` from its ingredients. -/
lemma select_best_path_go {rng : RandGen} {g : DiGraph} {ps : List (List String)}
    {ls ws : List ℚ} {de ds : Bool} {i : Nat} {rng2 : RandGen} {gr : DiGraph}
    (hn : ¬(ps.length = 1)) (hsel : selectedIndexR rng ps.length ls ws = .ok (i, rng2))
    (hip : i < ps.length) (hrp : remove_paths g (ps.eraseIdx i) de ds = .ok gr) :
    select_best_path rng g ps ls ws de ds = .ok (gr, rng2) := by
  unfold select_best_path
  rw [if_neg hn, hsel]
  show (if ps.length ≤ i then (Except.error "IndexError: pop index out of range")
      else remove_paths g (ps.eraseIdx i) de ds >>= fun g2 =>
        Except.ok (g2, rng2)) = .ok (gr, rng2)
  rw [if_neg (by omega), hrp]
  rfl

/-- Reduction of `solve_bubble` once the per-path weights are computed. -/
lemma solve_bubble_eq {rng : RandGen} {g : DiGraph} {a d : String} {ws : List ℚ}
    (hw : mapExcept (fun path => path_average_weight g path) (allSimplePaths g a d) =
      .ok ws) :
    solve_bubble rng g a d =
      select_best_path rng g (allSimplePaths g a d)
        (((allSimplePaths g a d).map (fun path => ((path.length : ℤ) - 1))).map
          intToRat) ws false false := by
  unfold solve_bubble
  simp only [hw]
  rfl

/-- Inversion of a failing bind. -/
lemma exceptBind_error {α β : Type} {x : Except String α} {f : α → Except String β}
    {e : String} (h : (x >>= f) = .error e) :
    x = .error e ∨ ∃ a, x = .ok a ∧ f a = .error e := by
  cases x with
  | error e2 =>
    left
    simp only [Bind.bind, Except.bind] at h
    injection h with he
    rw [he]
  | ok a =>
    right
    refine ⟨a, rfl, ?_⟩
    simp only [Bind.bind, Except.bind] at h
    exact h

lemma mem_predecessors {g : DiGraph} {u v : String} :
    u ∈ g.predecessors v ↔ ∃ w, (u, v, w) ∈ g.edges := by
  unfold DiGraph.predecessors
  rw [List.mem_map]
  constructor
  · rintro ⟨⟨a, b, w⟩, he, rfl⟩
    rw [List.mem_filter] at he
    obtain ⟨hmem, hdec⟩ := he
    simp only [decide_eq_true_eq] at hdec
    subst hdec
    exact ⟨w, hmem⟩
  · rintro ⟨w, hw⟩
    exact ⟨(u, v, w), List.mem_filter.mpr ⟨hw, by simp⟩, rfl⟩

lemma successors_subset_nodes {g : DiGraph} (hwf : wellFormed g) {u v : String}
    (h : v ∈ g.successors u) : v ∈ g.nodes := by
  obtain ⟨w, hw⟩ := mem_successors.mp h
  exact (hwf.2.1 _ hw).2

/-- Under the single-edge-per-pair invariant a node's predecessor list has
no duplicates. -/
lemma predecessors_nodup {g : DiGraph} (hwf : wellFormed g) (v : String) :
    (g.predecessors v).Nodup := by
  have hsub : ((g.edges.filter (fun e => e.2.1 = v)).map
      (fun e => (e.1, e.2.1))).Sublist (g.edges.map (fun e => (e.1, e.2.1))) :=
    (List.filter_sublist _).map _
  have hkeys := hsub.nodup hwf.2.2
  have hsnd : ∀ p ∈ (g.edges.filter (fun e => e.2.1 = v)).map
      (fun e => (e.1, e.2.1)), p.2 = v := by
    intro p hp
    rw [List.mem_map] at hp
    obtain ⟨e, he, rfl⟩ := hp
    rw [List.mem_filter] at he
    simpa using he.2
  have hmap : g.predecessors v =
      ((g.edges.filter (fun e => e.2.1 = v)).map (fun e => (e.1, e.2.1))).map
        Prod.fst := by
    unfold DiGraph.predecessors
    rw [List.map_map]
    rfl
  rw [hmap]
  refine List.Nodup.map_on ?_ hkeys
  intro x hx y hy hxy
  have hx2 := hsnd x hx
  have hy2 := hsnd y hy
  cases x
  cases y
  simp_all

/-- A duplicate-free list contained in another is no longer than it. -/
lemma nodup_length_le {l l' : List String} (hnd : l.Nodup) (hsub : l ⊆ l') :
    l.length ≤ l'.length := by
  have h1 : l.toFinset.card = l.length := List.toFinset_card_of_nodup hnd
  have h2 : l.toFinset ⊆ l'.toFinset := by
    intro x hx
    rw [List.mem_toFinset] at hx ⊢
    exact hsub hx
  calc l.length = l.toFinset.card := h1.symm
    _ ≤ l'.toFinset.card := Finset.card_le_card h2
    _ ≤ l'.length := l'.toFinset_card_le

/-- A list holding two distinct elements has length at least two. -/
lemma two_mem_length {α : Type} {l : List α} {x y : α} (hx : x ∈ l) (hy : y ∈ l)
    (hne : x ≠ y) : 2 ≤ l.length := by
  cases l with
  | nil => cases hx
  | cons a t =>
    cases t with
    | nil =>
      rw [List.mem_singleton] at hx hy
      exact absurd (hx.trans hy.symm) hne
    | cons b t2 =>
      simp only [List.length_cons]
      omega

lemma reachClosure_succ (g : DiGraph) (fuel : Nat) (acc : List String) :
    reachClosure g (fuel + 1) acc =
      if (((acc.flatMap (fun n => g.successors n)).filter
            (fun n => n ∉ acc)).dedup).isEmpty then acc
      else reachClosure g fuel
        (acc ++ ((acc.flatMap (fun n => g.successors n)).filter
          (fun n => n ∉ acc)).dedup) := rfl

/-- The accumulator is contained in its closure. -/
lemma subset_reachClosure (g : DiGraph) :
    ∀ (fuel : Nat) (acc : List String), acc ⊆ reachClosure g fuel acc := by
  intro fuel
  induction fuel with
  | zero => exact fun acc x hx => hx
  | succ fuel ih =>
    intro acc
    rw [reachClosure_succ]
    split
    · exact fun x hx => hx
    · exact fun x hx => ih _ (List.mem_append.mpr (Or.inl hx))

/-- With enough fuel the closure of a duplicate-free accumulator of graph
nodes is closed under successors. -/
lemma reachClosure_closed {g : DiGraph} (hwf : wellFormed g) :
    ∀ (fuel : Nat) (acc : List String), acc.Nodup → (∀ x ∈ acc, x ∈ g.nodes) →
      g.nodes.length - acc.length < fuel →
      ∀ x ∈ reachClosure g fuel acc, ∀ y ∈ g.successors x,
        y ∈ reachClosure g fuel acc := by
  intro fuel
  induction fuel with
  | zero =>
    intro acc _ _ hf
    exact absurd hf (Nat.not_lt_zero _)
  | succ fuel ih =>
    intro acc hnd hsubn hf
    rw [reachClosure_succ]
    by_cases hemp : (((acc.flatMap (fun n => g.successors n)).filter
        (fun n => n ∉ acc)).dedup).isEmpty
    · rw [if_pos hemp]
      intro x hx y hy
      by_contra hyn
      have hyf : y ∈ ((acc.flatMap (fun n => g.successors n)).filter
          (fun n => n ∉ acc)).dedup := by
        rw [List.mem_dedup, List.mem_filter]
        exact ⟨List.mem_flatMap.mpr ⟨x, hx, hy⟩, by simpa using hyn⟩
      rw [List.isEmpty_iff] at hemp
      rw [hemp] at hyf
      cases hyf
    · rw [if_neg hemp]
      have hnew_sub : ∀ z ∈ ((acc.flatMap (fun n => g.successors n)).filter
          (fun n => n ∉ acc)).dedup, z ∈ g.nodes ∧ z ∉ acc := by
        intro z hz
        rw [List.mem_dedup, List.mem_filter] at hz
        obtain ⟨x, _, hs⟩ := List.mem_flatMap.mp hz.1
        exact ⟨successors_subset_nodes hwf hs, by simpa using hz.2⟩
      have hnd2 : (acc ++ ((acc.flatMap (fun n => g.successors n)).filter
          (fun n => n ∉ acc)).dedup).Nodup := by
        rw [List.nodup_append]
        exact ⟨hnd, List.nodup_dedup _, fun a ha hb => (hnew_sub a hb).2 ha⟩
      have hsubn2 : ∀ x ∈ acc ++ ((acc.flatMap (fun n => g.successors n)).filter
          (fun n => n ∉ acc)).dedup, x ∈ g.nodes := by
        intro x hx
        rcases List.mem_append.mp hx with h | h
        · exact hsubn x h
        · exact (hnew_sub x h).1
      have hlen : acc.length + 1 ≤ g.nodes.length := by
        have hne : ((acc.flatMap (fun n => g.successors n)).filter
            (fun n => n ∉ acc)).dedup ≠ [] := by
          intro hcon
          exact hemp (by rw [hcon]; rfl)
        obtain ⟨z, hz⟩ := List.exists_mem_of_ne_nil _ hne
        have hzn := hnew_sub z hz
        have hznd : (z :: acc).Nodup := List.nodup_cons.mpr ⟨hzn.2, hnd⟩
        have hzsub : (z :: acc) ⊆ g.nodes := by
          intro x hx
          rcases List.mem_cons.mp hx with rfl | h
          · exact hzn.1
          · exact hsubn x h
        simpa using nodup_length_le hznd hzsub
      have hn1 : 1 ≤ (((acc.flatMap (fun n => g.successors n)).filter
          (fun n => n ∉ acc)).dedup).length := by
        cases hn : ((acc.flatMap (fun n => g.successors n)).filter
            (fun n => n ∉ acc)).dedup with
        | nil => exact absurd (by rw [hn]; rfl) hemp
        | cons a t => simp
      have hf2 : g.nodes.length -
          (acc ++ ((acc.flatMap (fun n => g.successors n)).filter
            (fun n => n ∉ acc)).dedup).length < fuel := by
        rw [List.length_append]
        omega
      exact ih _ hnd2 hsubn2 hf2

/-- Soundness: every closure member is joined to the start by a walk along
edges, provided every accumulator member is. -/
lemma reachClosure_sound {g : DiGraph} {s : String} :
    ∀ (fuel : Nat) (acc : List String),
      (∀ x ∈ acc, ∃ w : List String, w.head? = some s ∧ w.getLast? = some x ∧
        List.Chain' (fun u v => ∃ c, (u, v, c) ∈ g.edges) w) →
      ∀ y ∈ reachClosure g fuel acc,
        ∃ w : List String, w.head? = some s ∧ w.getLast? = some y ∧
          List.Chain' (fun u v => ∃ c, (u, v, c) ∈ g.edges) w := by
  intro fuel
  induction fuel with
  | zero => intro acc hacc; exact hacc
  | succ fuel ih =>
    intro acc hacc
    rw [reachClosure_succ]
    split
    · exact hacc
    · apply ih
      intro x hx
      rcases List.mem_append.mp hx with h | h
      · exact hacc x h
      · rw [List.mem_dedup, List.mem_filter] at h
        obtain ⟨z, hz, hs⟩ := List.mem_flatMap.mp h.1
        obtain ⟨w, hw1, hw2, hw3⟩ := hacc z hz
        obtain ⟨c, hc⟩ := mem_successors.mp hs
        refine ⟨w ++ [x], ?_, ?_, ?_⟩
        · cases w with
          | nil => cases hw1
          | cons h0 t => simpa using hw1
        · rw [List.getLast?_concat]
        · refine List.Chain'.append hw3 (List.chain'_singleton x) ?_
          intro p hp q hq
          rw [Option.mem_def, hw2] at hp
          injection hp with hp
          rw [Option.mem_def] at hq
          injection hq with hq
          subst hp
          subst hq
          exact ⟨c, hc⟩

/-- Every walk member starting inside a successor-closed set stays inside. -/
lemma chain_mem_closed {g : DiGraph} {C : List String}
    (hC : ∀ x ∈ C, ∀ y ∈ g.successors x, y ∈ C) :
    ∀ (w : List String), List.Chain' (fun u v => ∃ c, (u, v, c) ∈ g.edges) w →
      ∀ s, w.head? = some s → s ∈ C → ∀ y ∈ w, y ∈ C := by
  intro w
  induction w with
  | nil => intro _ s _ _ y hy; cases hy
  | cons u rest ih =>
    intro hch s hs hsC y hy
    injection hs with hs
    subst hs
    rcases List.mem_cons.mp hy with rfl | hy2
    · exact hsC
    · cases rest with
      | nil => cases hy2
      | cons v rest2 =>
        obtain ⟨⟨c, hc⟩, hch2⟩ := List.chain'_cons.mp hch
        have hvC : v ∈ C := hC u hsC v (mem_successors.mpr ⟨c, hc⟩)
        exact ih hch2 v rfl hvC y hy2

/-- Every walk visits only graph nodes. -/
lemma chain_subset_nodes {g : DiGraph} (hwf : wellFormed g) :
    ∀ (w : List String), List.Chain' (fun u v => ∃ c, (u, v, c) ∈ g.edges) w →
      ∀ s, w.head? = some s → s ∈ g.nodes → ∀ x ∈ w, x ∈ g.nodes := by
  intro w
  induction w with
  | nil => intro _ s _ _ x hx; cases hx
  | cons u rest ih =>
    intro hch s hs hsn x hx
    injection hs with hs
    subst hs
    rcases List.mem_cons.mp hx with rfl | hx2
    · exact hsn
    · cases rest with
      | nil => cases hx2
      | cons v rest2 =>
        obtain ⟨⟨c, hc⟩, hch2⟩ := List.chain'_cons.mp hch
        exact ih hch2 v rfl (hwf.2.1 _ hc).2 x hx2

/-- A walk that repeats a node contains a closed subwalk. -/
lemma chain_not_nodup_cycle {R : String → String → Prop} :
    ∀ (w : List String), List.Chain' R w → ¬ w.Nodup →
      ∃ (n : String) (t : List String), List.Chain' R (n :: t ++ [n]) := by
  intro w
  induction w with
  | nil => intro _ hnd; exact absurd List.nodup_nil hnd
  | cons x rest ih =>
    intro hch hnd
    by_cases hx : x ∈ rest
    · obtain ⟨t1, t2, rfl⟩ := List.append_of_mem hx
      refine ⟨x, t1, ?_⟩
      have hpre : (x :: t1 ++ [x]) <+: (x :: t1 ++ x :: t2) :=
        ⟨t2, by simp⟩
      exact hch.prefix hpre
    · have hnd2 : ¬ rest.Nodup := fun hcon => hnd (List.nodup_cons.mpr ⟨hx, hcon⟩)
      exact ih hch.tail hnd2

/-- In a graph passing the `is_directed_acyclic_graph` check every walk is
automatically simple: a repeated node would close a directed cycle. -/
lemma dag_chain_nodup {g : DiGraph} (hwf : wellFormed g)
    (hdag : is_directed_acyclic_graph g = true) :
    ∀ (w : List String), List.Chain' (fun u v => ∃ c, (u, v, c) ∈ g.edges) w →
      w.Nodup := by
  intro w hch
  by_contra hnd
  obtain ⟨n, t, hcyc⟩ := chain_not_nodup_cycle _ hch hnd
  unfold is_directed_acyclic_graph at hdag
  rw [List.all_eq_true] at hdag
  cases t with
  | nil =>
    obtain ⟨⟨c, hc⟩, -⟩ := List.chain'_cons.mp hcyc
    have hnn : n ∈ g.nodes := (hwf.2.1 _ hc).1
    have hns : n ∈ (g.successors n).dedup :=
      List.mem_dedup.mpr (mem_successors.mpr ⟨c, hc⟩)
    have hmem : n ∈ reachClosure g g.nodes.length (g.successors n).dedup :=
      subset_reachClosure g _ _ hns
    have := hdag n hnn
    simp only [decide_eq_true_eq] at this
    exact this hmem
  | cons v t2 =>
    obtain ⟨⟨c, hc⟩, hch2⟩ := List.chain'_cons.mp hcyc
    have hnn : n ∈ g.nodes := (hwf.2.1 _ hc).1
    have hvs : v ∈ (g.successors n).dedup :=
      List.mem_dedup.mpr (mem_successors.mpr ⟨c, hc⟩)
    have hacc_nd : ((g.successors n).dedup).Nodup := List.nodup_dedup _
    have hacc_sub : ∀ x ∈ (g.successors n).dedup, x ∈ g.nodes := by
      intro x hx
      exact successors_subset_nodes hwf (List.mem_dedup.mp hx)
    have hfuel : g.nodes.length - ((g.successors n).dedup).length <
        g.nodes.length := by
      have h1 : 1 ≤ ((g.successors n).dedup).length :=
        List.length_pos.mpr (List.ne_nil_of_mem hvs)
      have h2 : 1 ≤ g.nodes.length :=
        List.length_pos.mpr (List.ne_nil_of_mem hnn)
      omega
    have hclosed := reachClosure_closed hwf g.nodes.length
      (g.successors n).dedup hacc_nd hacc_sub hfuel
    have hvC : v ∈ reachClosure g g.nodes.length (g.successors n).dedup :=
      subset_reachClosure g _ _ hvs
    have hmem : n ∈ reachClosure g g.nodes.length (g.successors n).dedup :=
      chain_mem_closed hclosed (v :: t2 ++ [n]) hch2 v rfl hvC n
        (by simp)
    have := hdag n hnn
    simp only [decide_eq_true_eq] at this
    exact this hmem

/-- Completeness of the DFS: every simple edge walk from the current node to
the target that avoids the visited prefix is enumerated, given fuel at least
its length. -/
lemma simplePathsFrom_complete {g : DiGraph} {tgt : String} :
    ∀ (fuel : Nat) (pref : List String) (cur : String) (rest : List String),
      List.Chain' (fun u v => ∃ c, (u, v, c) ∈ g.edges) (cur :: rest) →
      rest ≠ [] →
      (cur :: rest).getLast? = some tgt →
      (pref ++ cur :: rest).Nodup →
      rest.length ≤ fuel →
      (pref ++ cur :: rest) ∈ simplePathsFrom g tgt fuel pref cur := by
  intro fuel
  induction fuel with
  | zero =>
    intro pref cur rest _ hne _ _ hlen
    cases rest with
    | nil => exact absurd rfl hne
    | cons v t => simp at hlen
  | succ fuel ih =>
    intro pref cur rest hch hne hlast hnd hlen
    cases rest with
    | nil => exact absurd rfl hne
    | cons v t =>
      obtain ⟨⟨c, hc⟩, hch2⟩ := List.chain'_cons.mp hch
      have hvs : v ∈ g.successors cur := mem_successors.mpr ⟨c, hc⟩
      show pref ++ cur :: v :: t ∈ (g.successors cur).flatMap _
      rw [List.mem_flatMap]
      refine ⟨v, hvs, ?_⟩
      cases t with
      | nil =>
        have hv : v = tgt := by
          rw [List.getLast?_cons_cons, List.getLast?_singleton] at hlast
          injection hlast
        subst hv
        rw [if_pos rfl]
        exact List.mem_singleton.mpr rfl
      | cons x t2 =>
        have hnd_r : (cur :: v :: x :: t2).Nodup := (List.nodup_append.mp hnd).2.1
        have hcv : cur ∉ v :: x :: t2 := (List.nodup_cons.mp hnd_r).1
        have hnd_v : (v :: x :: t2).Nodup := (List.nodup_cons.mp hnd_r).2
        have hv_notin : v ∉ x :: t2 := (List.nodup_cons.mp hnd_v).1
        have hlast2 : (v :: x :: t2).getLast? = some tgt := by
          rw [List.getLast?_cons_cons] at hlast
          exact hlast
        have hlast3 : (x :: t2).getLast? = some tgt := by
          rw [List.getLast?_cons_cons] at hlast2
          exact hlast2
        have hvt : v ≠ tgt := by
          intro hveq
          apply hv_notin
          rw [hveq]
          exact List.mem_of_mem_getLast? hlast3
        have hv_pref : v ∉ pref := by
          intro hvp
          exact List.disjoint_of_nodup_append hnd hvp (by simp)
        have hv_cur : v ≠ cur := by
          intro hvc
          apply hcv
          rw [← hvc]
          exact List.mem_cons_self v (x :: t2)
        rw [if_neg hvt, if_neg (not_or.mpr ⟨hv_pref, hv_cur⟩)]
        have hnd' : ((pref ++ [cur]) ++ v :: x :: t2).Nodup := by
          rw [List.append_assoc, List.singleton_append]
          exact hnd
        have hlen' : (x :: t2).length ≤ fuel := by
          simp only [List.length_cons] at hlen ⊢
          omega
        have hrec := ih (pref ++ [cur]) v (x :: t2) hch2 (by simp) hlast2 hnd' hlen'
        rw [List.append_assoc, List.singleton_append] at hrec
        exact hrec

/-- Completeness of the enumeration `nx.all_simple_paths`. -/
lemma allSimplePaths_complete {g : DiGraph} {a d : String} {p : List String}
    (hne : a ≠ d) (han : a ∈ g.nodes) (hdn : d ∈ g.nodes)
    (rest : List String) (hp : p = a :: rest) (hrne : rest ≠ [])
    (hrlen : rest.length ≤ g.nodes.length)
    (hch : List.Chain' (fun u v => ∃ c, (u, v, c) ∈ g.edges) p)
    (hlast : p.getLast? = some d) (hnd : p.Nodup) :
    p ∈ allSimplePaths g a d := by
  subst hp
  unfold allSimplePaths
  rw [if_neg (by push_neg; exact ⟨hne, han, hdn⟩)]
  have := simplePathsFrom_complete g.nodes.length [] a rest hch hrne hlast
    (by simpa using hnd) hrlen
  simpa using this

/-- The climb never leaves the common-ancestor set. -/
lemma lcaClimb_mem {g : DiGraph} {common : List String} :
    ∀ (fuel : Nat) (c : String), c ∈ common → lcaClimb g common fuel c ∈ common := by
  intro fuel
  induction fuel with
  | zero => intro c hc; exact hc
  | succ fuel ih =>
    intro c hc
    unfold lcaClimb
    cases hf : (g.successors c).find? (fun s => s ∈ common) with
    | none => exact hc
    | some c2 =>
      have hc2 : c2 ∈ common := by
        have := List.find?_some hf
        simpa using this
      exact ih c2 hc2

/-- Membership in the common-ancestor set unfolded: the member is a graph
node and a reflexive ancestor of both arguments. -/
lemma mem_commonAncestors {g : DiGraph} {u v n : String}
    (h : n ∈ commonAncestors g u v) :
    n ∈ g.nodes ∧ (n = u ∨ u ∈ reachClosure g g.nodes.length [n]) ∧
      (n = v ∨ v ∈ reachClosure g g.nodes.length [n]) := by
  unfold commonAncestors at h
  rw [List.mem_filter] at h
  obtain ⟨hn, hcond⟩ := h
  simp only [decide_eq_true_eq] at hcond
  obtain ⟨h1, h2⟩ := hcond
  refine ⟨hn, ?_, ?_⟩
  · rcases List.mem_cons.mp h1 with h | h
    · exact Or.inl h
    · unfold ancestors at h
      rw [List.mem_filter] at h
      have := h.2
      simp only [decide_eq_true_eq] at this
      exact Or.inr this.2
  · rcases List.mem_cons.mp h2 with h | h
    · exact Or.inl h
    · unfold ancestors at h
      rw [List.mem_filter] at h
      have := h.2
      simp only [decide_eq_true_eq] at this
      exact Or.inr this.2

/-- A successful LCA call certifies the acyclicity check and puts its result
in the common-ancestor set. -/
lemma lca_ok_some {g : DiGraph} {u v a : String}
    (h : lowest_common_ancestor g u v = .ok (some a)) :
    is_directed_acyclic_graph g = true ∧ a ∈ commonAncestors g u v := by
  unfold lowest_common_ancestor at h
  split at h
  · rename_i hdag
    refine ⟨hdag, ?_⟩
    cases hcom : commonAncestors g u v with
    | nil =>
      rw [hcom] at h
      simp at h
    | cons c cs =>
      rw [hcom] at h
      injection h with h2
      injection h2 with h3
      rw [← h3]
      exact lcaClimb_mem _ c (List.mem_cons_self c cs)
  · exact Except.noConfusion h

/-- An LCA failure carries exactly the library's cyclic-graph message. -/
lemma lca_error {g : DiGraph} {u v : String} {e : String}
    (h : lowest_common_ancestor g u v = .error e) :
    e = "NetworkXError: LCA only defined on directed acyclic graphs." := by
  unfold lowest_common_ancestor at h
  split at h
  · split at h
    · exact Except.noConfusion h
    · exact Except.noConfusion h
  · injection h with h2
    exact h2.symm

/-- What a successful inner pair scan reports: a break delivers a pair whose
LCA call succeeded with a value; no break leaves `noeud_ancetre` untouched
only when no pair was scanned, else `None`. -/
lemma scanPairs_ok {g : DiGraph} {ni : String} :
    ∀ (js : List String) (anc0 anc : Option String) (found : Bool),
      scanPairs g ni js anc0 = .ok (anc, found) →
      (found = true → ∃ nj ∈ js,
        lowest_common_ancestor g ni nj = .ok anc ∧ anc.isSome) ∧
      (found = false → (js = [] ∧ anc = anc0) ∨ anc = none) := by
  intro js
  induction js with
  | nil =>
    intro anc0 anc found h
    injection h with h2
    obtain ⟨rfl, rfl⟩ := Prod.mk.inj h2
    constructor
    · intro hf; exact Bool.noConfusion hf
    · intro _; exact Or.inl ⟨rfl, rfl⟩
  | cons j js2 ih =>
    intro anc0 anc found h
    rw [show scanPairs g ni (j :: js2) anc0 =
        (lowest_common_ancestor g ni j >>= fun anc2 =>
          if anc2.isSome then .ok (anc2, true) else scanPairs g ni js2 anc2)
        from rfl, exceptBind_ok_iff] at h
    obtain ⟨anc2, hlca, h⟩ := h
    by_cases hs : anc2.isSome = true
    · rw [if_pos hs] at h
      injection h with h2
      obtain ⟨rfl, rfl⟩ := Prod.mk.inj h2
      constructor
      · intro _
        exact ⟨j, List.mem_cons_self j js2, hlca, hs⟩
      · intro hf; exact Bool.noConfusion hf
    · rw [if_neg hs] at h
      have hnone : anc2 = none := Option.not_isSome_iff_eq_none.mp hs
      subst hnone
      obtain ⟨h1, h2⟩ := ih none anc found h
      constructor
      · intro hf
        obtain ⟨nj, hmem, hl, hsm⟩ := h1 hf
        exact ⟨nj, List.mem_cons_of_mem j hmem, hl, hsm⟩
      · intro hf
        rcases h2 hf with ⟨-, rfl⟩ | rfl
        · exact Or.inr rfl
        · exact Or.inr rfl

/-- The predecessor-loop invariant: whenever the final state records a
bubble with an ancestor and a descendant, some pair of distinct
predecessors of the recorded descendant has that LCA. -/
lemma scanPreds_ok {g : DiGraph} {node : String} :
    ∀ (l : List String) (st st' : Bool × Option String × Option String),
      scanPreds g node l st = .ok st' →
      l.Nodup → (∀ x ∈ l, x ∈ g.predecessors node) →
      (∀ a dn, st = (true, some a, some dn) →
        ∃ p q, p ∈ g.predecessors dn ∧ q ∈ g.predecessors dn ∧ p ≠ q ∧
          lowest_common_ancestor g p q = .ok (some a)) →
      (∀ a dn, st' = (true, some a, some dn) →
        ∃ p q, p ∈ g.predecessors dn ∧ q ∈ g.predecessors dn ∧ p ≠ q ∧
          lowest_common_ancestor g p q = .ok (some a)) := by
  intro l
  induction l with
  | nil =>
    intro st st' h _ _ hinv
    injection h with h2
    subst h2
    exact hinv
  | cons ni rest ih =>
    intro st st' h hnd hsub hinv
    obtain ⟨bubble, anc, desc⟩ := st
    rw [show scanPreds g node (ni :: rest) (bubble, anc, desc) =
        (scanPairs g ni rest anc >>= fun pr =>
          if pr.2 then .ok (true, pr.1, some node)
          else if bubble then .ok (bubble, pr.1, desc)
          else scanPreds g node rest (bubble, pr.1, desc)) from rfl,
      exceptBind_ok_iff] at h
    obtain ⟨⟨anc2, found⟩, hsp, h⟩ := h
    dsimp only at h
    obtain ⟨hfound_t, hfound_f⟩ := scanPairs_ok rest anc anc2 found hsp
    by_cases hf : found = true
    · subst hf
      rw [if_pos rfl] at h
      injection h with h2
      subst h2
      intro a dn heq
      have h1 : anc2 = some a := congrArg (fun t => t.2.1) heq
      have h2 : some node = some dn := congrArg (fun t => t.2.2) heq
      injection h2 with h2
      subst h2
      obtain ⟨nj, hmem, hl, -⟩ := hfound_t rfl
      rw [h1] at hl
      refine ⟨ni, nj, hsub ni (List.mem_cons_self ni rest),
        hsub nj (List.mem_cons_of_mem ni hmem), ?_, hl⟩
      intro hnieq
      exact (List.nodup_cons.mp hnd).1 (by rw [hnieq]; exact hmem)
    · have hf2 : found = false := by simpa using hf
      subst hf2
      rw [if_neg (by simp)] at h
      by_cases hb : bubble = true
      · subst hb
        rw [if_pos rfl] at h
        injection h with h2
        subst h2
        intro a dn heq
        have h1 : anc2 = some a := congrArg (fun t => t.2.1) heq
        have h2 : desc = some dn := congrArg (fun t => t.2.2) heq
        rcases hfound_f rfl with ⟨-, rfl⟩ | rfl
        · exact hinv a dn (by rw [← h1, ← h2])
        · exact Option.noConfusion h1
      · have hb2 : bubble = false := by simpa using hb
        subst hb2
        rw [if_neg (by simp)] at h
        refine ih (false, anc2, desc) st' h (List.nodup_cons.mp hnd).2
          (fun x hx => hsub x (List.mem_cons_of_mem ni hx)) ?_
        intro a dn heq
        exact absurd (congrArg (fun t => t.1) heq) (by simp)

/-- The whole-graph scan invariant: a recorded bubble always comes from a
successful LCA call on two distinct predecessors of the recorded node. -/
lemma scanGraph_ok {g : DiGraph} (hwf : wellFormed g) :
    ∀ (ns : List String) (st st' : Bool × Option String × Option String),
      scanGraph g ns st = .ok st' →
      (∀ a dn, st = (true, some a, some dn) →
        ∃ p q, p ∈ g.predecessors dn ∧ q ∈ g.predecessors dn ∧ p ≠ q ∧
          lowest_common_ancestor g p q = .ok (some a)) →
      (∀ a dn, st' = (true, some a, some dn) →
        ∃ p q, p ∈ g.predecessors dn ∧ q ∈ g.predecessors dn ∧ p ≠ q ∧
          lowest_common_ancestor g p q = .ok (some a)) := by
  intro ns
  induction ns with
  | nil =>
    intro st st' h hinv
    injection h with h2
    subst h2
    exact hinv
  | cons node ns2 ih =>
    intro st st' h hinv
    rw [show scanGraph g (node :: ns2) st =
        ((if 1 < (g.predecessors node).length then
            scanPreds g node (g.predecessors node) st
          else .ok st) >>= fun st2 => scanGraph g ns2 st2) from rfl,
      exceptBind_ok_iff] at h
    obtain ⟨st2, h1, h2⟩ := h
    apply ih st2 st' h2
    by_cases hp : 1 < (g.predecessors node).length
    · rw [if_pos hp] at h1
      exact scanPreds_ok (g.predecessors node) st st2 h1
        (predecessors_nodup hwf node) (fun x hx => hx) hinv
    · rw [if_neg hp] at h1
      injection h1 with h12
      subst h12
      exact hinv

/-- A failing inner pair scan carries the LCA error message. -/
lemma scanPairs_error {g : DiGraph} {ni : String} :
    ∀ (js : List String) (anc0 : Option String) (e : String),
      scanPairs g ni js anc0 = .error e →
      e = "NetworkXError: LCA only defined on directed acyclic graphs." := by
  intro js
  induction js with
  | nil => intro anc0 e h; exact Except.noConfusion h
  | cons j js2 ih =>
    intro anc0 e h
    rw [show scanPairs g ni (j :: js2) anc0 =
        (lowest_common_ancestor g ni j >>= fun anc2 =>
          if anc2.isSome then .ok (anc2, true) else scanPairs g ni js2 anc2)
        from rfl] at h
    rcases exceptBind_error h with h1 | ⟨anc2, -, h2⟩
    · exact lca_error h1
    · by_cases hs : anc2.isSome = true
      · rw [if_pos hs] at h2
        exact Except.noConfusion h2
      · rw [if_neg hs] at h2
        exact ih anc2 e h2

/-- A failing predecessor loop carries the LCA error message. -/
lemma scanPreds_error {g : DiGraph} {node : String} :
    ∀ (l : List String) (st : Bool × Option String × Option String) (e : String),
      scanPreds g node l st = .error e →
      e = "NetworkXError: LCA only defined on directed acyclic graphs." := by
  intro l
  induction l with
  | nil => intro st e h; exact Except.noConfusion h
  | cons ni rest ih =>
    intro st e h
    obtain ⟨bubble, anc, desc⟩ := st
    rw [show scanPreds g node (ni :: rest) (bubble, anc, desc) =
        (scanPairs g ni rest anc >>= fun pr =>
          if pr.2 then .ok (true, pr.1, some node)
          else if bubble then .ok (bubble, pr.1, desc)
          else scanPreds g node rest (bubble, pr.1, desc)) from rfl] at h
    rcases exceptBind_error h with h1 | ⟨⟨anc2, found⟩, -, h2⟩
    · exact scanPairs_error rest anc e h1
    · dsimp only at h2
      by_cases hf : found = true
      · rw [if_pos hf] at h2
        exact Except.noConfusion h2
      · rw [if_neg hf] at h2
        by_cases hb : bubble = true
        · rw [if_pos hb] at h2
          exact Except.noConfusion h2
        · rw [if_neg hb] at h2
          exact ih (bubble, anc2, desc) e h2

/-- A failing whole-graph scan carries the LCA error message. -/
lemma scanGraph_error {g : DiGraph} :
    ∀ (ns : List String) (st : Bool × Option String × Option String) (e : String),
      scanGraph g ns st = .error e →
      e = "NetworkXError: LCA only defined on directed acyclic graphs." := by
  intro ns
  induction ns with
  | nil => intro st e h; exact Except.noConfusion h
  | cons node ns2 ih =>
    intro st e h
    rw [show scanGraph g (node :: ns2) st =
        ((if 1 < (g.predecessors node).length then
            scanPreds g node (g.predecessors node) st
          else .ok st) >>= fun st2 => scanGraph g ns2 st2) from rfl] at h
    rcases exceptBind_error h with h1 | ⟨st2, -, h2⟩
    · by_cases hp : 1 < (g.predecessors node).length
      · rw [if_pos hp] at h1
        exact scanPreds_error (g.predecessors node) st e h1
      · rw [if_neg hp] at h1
        exact Except.noConfusion h1
    · exact ih st2 e h2

/-- The key consequence of the acyclicity check: a bubble recorded by the
scan on a well-formed graph has at least two enumerated simple paths from
its ancestor to its descendant (one through each predecessor). -/
lemma recorded_bubble_two_paths {g : DiGraph} (hwf : wellFormed g)
    {a dn p q : String}
    (hp : p ∈ g.predecessors dn) (hq : q ∈ g.predecessors dn) (hpq : p ≠ q)
    (hlca : lowest_common_ancestor g p q = .ok (some a)) :
    2 ≤ (allSimplePaths g a dn).length := by
  obtain ⟨hdag, hmem⟩ := lca_ok_some hlca
  obtain ⟨han, hra, hrb⟩ := mem_commonAncestors hmem
  obtain ⟨cp, hcp⟩ := mem_predecessors.mp hp
  obtain ⟨cq, hcq⟩ := mem_predecessors.mp hq
  have hdnn : dn ∈ g.nodes := (hwf.2.1 _ hcp).2
  have hwalk : ∀ (x : String), (a = x ∨ x ∈ reachClosure g g.nodes.length [a]) →
      ∃ w : List String, w.head? = some a ∧ w.getLast? = some x ∧
        List.Chain' (fun s t => ∃ c, (s, t, c) ∈ g.edges) w := by
    intro x hx
    rcases hx with rfl | hx
    · exact ⟨[a], rfl, List.getLast?_singleton a, List.chain'_singleton a⟩
    · refine reachClosure_sound g.nodes.length [a] ?_ x hx
      intro z hz
      rw [List.mem_singleton] at hz
      rw [hz]
      exact ⟨[a], rfl, List.getLast?_singleton a, List.chain'_singleton a⟩
  have hext : ∀ (w : List String) (x : String) (c : ℚ), w.head? = some a →
      w.getLast? = some x → (x, dn, c) ∈ g.edges →
      List.Chain' (fun s t => ∃ c2, (s, t, c2) ∈ g.edges) w →
      ∃ rest, w ++ [dn] = a :: rest ∧ rest ≠ [] ∧
        rest.length ≤ g.nodes.length ∧
        List.Chain' (fun s t => ∃ c2, (s, t, c2) ∈ g.edges) (w ++ [dn]) ∧
        (w ++ [dn]).getLast? = some dn ∧ (w ++ [dn]).Nodup := by
    intro w x c hh hl he hc
    have hch : List.Chain' (fun s t => ∃ c2, (s, t, c2) ∈ g.edges) (w ++ [dn]) := by
      refine List.Chain'.append hc (List.chain'_singleton dn) ?_
      intro s hs t ht
      rw [Option.mem_def, hl] at hs
      injection hs with hs
      rw [Option.mem_def] at ht
      injection ht with ht
      subst hs
      subst ht
      exact ⟨c, he⟩
    have hnd : (w ++ [dn]).Nodup := dag_chain_nodup hwf hdag _ hch
    cases w with
    | nil => simp at hh
    | cons a0 t =>
      injection hh with hh
      subst hh
      have hnodes : ∀ y ∈ (a0 :: t) ++ [dn], y ∈ g.nodes :=
        chain_subset_nodes hwf ((a0 :: t) ++ [dn]) hch a0 (by simp) han
      have hlen2 : ((a0 :: t) ++ [dn]).length ≤ g.nodes.length :=
        nodup_length_le hnd (fun y hy => hnodes y hy)
      refine ⟨t ++ [dn], rfl, by simp, ?_, hch, List.getLast?_concat _, hnd⟩
      simp only [List.cons_append, List.length_cons] at hlen2
      omega
  obtain ⟨w1, hw1h, hw1l, hw1c⟩ := hwalk p hra
  obtain ⟨w2, hw2h, hw2l, hw2c⟩ := hwalk q hrb
  obtain ⟨r1, he1, hr1ne, hr1len, hc1, hl1, hnd1⟩ := hext w1 p cp hw1h hw1l hcp hw1c
  obtain ⟨r2, he2, hr2ne, hr2len, hc2, hl2, hnd2⟩ := hext w2 q cq hw2h hw2l hcq hw2c
  have hand : a ≠ dn := by
    intro heq
    have hdn_mem : dn ∈ r1 := by
      have hlr : (a :: r1).getLast? = some dn := by rw [← he1]; exact hl1
      cases r1 with
      | nil => exact absurd rfl hr1ne
      | cons x xs =>
        rw [List.getLast?_cons_cons] at hlr
        exact List.mem_of_mem_getLast? hlr
    have hndr : (a :: r1).Nodup := by rw [← he1]; exact hnd1
    exact (List.nodup_cons.mp hndr).1 (by rw [heq]; exact hdn_mem)
  have hmem1 : w1 ++ [dn] ∈ allSimplePaths g a dn :=
    allSimplePaths_complete hand han hdnn r1 he1 hr1ne hr1len hc1 hl1 hnd1
  have hmem2 : w2 ++ [dn] ∈ allSimplePaths g a dn :=
    allSimplePaths_complete hand han hdnn r2 he2 hr2ne hr2len hc2 hl2 hnd2
  have hne12 : w1 ++ [dn] ≠ w2 ++ [dn] := by
    intro heq
    have hw : w1 = w2 := by simpa using heq
    rw [hw] at hw1l
    rw [hw2l] at hw1l
    injection hw1l with hcon
    exact hpq hcon.symm
  exact two_mem_length hmem1 hmem2 hne12

/-- `remove_nodes_from` preserves the representation invariants. -/
lemma wellFormed_removeNodesFrom {g : DiGraph} (hwf : wellFormed g)
    (ns : List String) : wellFormed (g.removeNodesFrom ns) := by
  refine ⟨hwf.1.filter _, ?_, ?_⟩
  · intro e he
    have he2 : e ∈ g.edges.filter (fun e => e.1 ∉ ns ∧ e.2.1 ∉ ns) := he
    have hmem : e ∈ g.edges := List.mem_of_mem_filter he2
    rw [List.mem_filter] at he2
    have hcond := he2.2
    simp only [decide_eq_true_eq] at hcond
    have hn := hwf.2.1 e hmem
    constructor
    · show e.1 ∈ g.nodes.filter _
      rw [List.mem_filter]
      refine ⟨hn.1, ?_⟩
      simpa using hcond.1
    · show e.2.1 ∈ g.nodes.filter _
      rw [List.mem_filter]
      refine ⟨hn.2, ?_⟩
      simpa using hcond.2
  · exact ((List.filter_sublist _).map _).nodup hwf.2.2

/-- `remove_edge` preserves the representation invariants. -/
lemma wellFormed_removeEdgeE {g g' : DiGraph} {u v : String} (hwf : wellFormed g)
    (h : g.removeEdgeE u v = .ok g') : wellFormed g' := by
  unfold DiGraph.removeEdgeE at h
  split at h
  · injection h with h2
    subst h2
    refine ⟨hwf.1, ?_, ?_⟩
    · intro e he
      exact hwf.2.1 e (List.mem_of_mem_filter he)
    · exact ((List.filter_sublist _).map _).nodup hwf.2.2
  · exact Except.noConfusion h

lemma removePathEdges_wf :
    ∀ (p : List String) (g g' : DiGraph), wellFormed g →
      removePathEdges g p = .ok g' → wellFormed g' := by
  intro p
  induction p with
  | nil =>
    intro g g' hwf h
    injection h with h2
    subst h2
    exact hwf
  | cons u rest ih =>
    intro g g' hwf h
    cases rest with
    | nil =>
      injection h with h2
      subst h2
      exact hwf
    | cons v rest2 =>
      rw [show removePathEdges g (u :: v :: rest2) =
          (g.removeEdgeE u v >>= fun g2 => removePathEdges g2 (v :: rest2))
          from rfl, exceptBind_ok_iff] at h
      obtain ⟨g2, h1, h2⟩ := h
      exact ih g2 g' (wellFormed_removeEdgeE hwf h1) h2

lemma removeAllEdges_wf :
    ∀ (ps : List (List String)) (g g' : DiGraph), wellFormed g →
      removeAllEdges g ps = .ok g' → wellFormed g' := by
  intro ps
  induction ps with
  | nil =>
    intro g g' hwf h
    injection h with h2
    subst h2
    exact hwf
  | cons p ps2 ih =>
    intro g g' hwf h
    rw [show removeAllEdges g (p :: ps2) =
        (removePathEdges g p >>= fun g2 => removeAllEdges g2 ps2) from rfl,
      exceptBind_ok_iff] at h
    obtain ⟨g2, h1, h2⟩ := h
    exact ih g2 g' (removePathEdges_wf p g g2 hwf h1) h2

/-- `remove_paths` preserves the representation invariants. -/
lemma remove_paths_wf {g : DiGraph} {ps : List (List String)} {de ds : Bool}
    {g' : DiGraph} (hwf : wellFormed g) (h : remove_paths g ps de ds = .ok g') :
    wellFormed g' := by
  unfold remove_paths at h
  rw [exceptBind_ok_iff] at h
  obtain ⟨g1, h1, h⟩ := h
  rw [exceptBind_ok_iff] at h
  obtain ⟨g2, h2, h⟩ := h
  rw [exceptBind_ok_iff] at h
  obtain ⟨g3, h3, h⟩ := h
  injection h with h4
  subst h4
  have hwf1 : wellFormed g1 := removeAllEdges_wf ps g g1 hwf h1
  have hwf2 : wellFormed g2 := by
    by_cases hde : de = true
    · rw [if_pos hde] at h2
      unfold deleteEntryNodes at h2
      split at h2
      · exact Except.noConfusion h2
      · injection h2 with h5
        subst h5
        exact wellFormed_removeNodesFrom hwf1 _
    · rw [if_neg hde] at h2
      injection h2 with h5
      subst h5
      exact hwf1
  have hwf3 : wellFormed g3 := by
    by_cases hds : ds = true
    · rw [if_pos hds] at h3
      unfold deleteSinkNodes at h3
      split at h3
      · exact Except.noConfusion h3
      · injection h3 with h5
        subst h5
        exact wellFormed_removeNodesFrom hwf2 _
    · rw [if_neg hds] at h3
      injection h3 with h5
      subst h5
      exact hwf2
  exact wellFormed_removeNodesFrom hwf3 _

/-- `select_best_path` preserves the representation invariants. -/
lemma select_best_path_wf {rng : RandGen} {g : DiGraph} {ps : List (List String)}
    {ls ws : List ℚ} {de ds : Bool} {g' : DiGraph} {rng' : RandGen}
    (hwf : wellFormed g)
    (h : select_best_path rng g ps ls ws de ds = .ok (g', rng')) :
    wellFormed g' := by
  by_cases h1 : ps.length = 1
  · unfold select_best_path at h
    rw [if_pos h1] at h
    injection h with h2
    have hgg : g = g' := congrArg Prod.fst h2
    rw [← hgg]
    exact hwf
  · obtain ⟨idx, -, -, hrp⟩ := select_best_path_ok h1 h
    exact remove_paths_wf hwf hrp

/-- `solve_bubble` preserves the representation invariants. -/
lemma solve_bubble_wf {rng : RandGen} {g : DiGraph} {a d : String}
    {gr : DiGraph × RandGen} (hwf : wellFormed g)
    (h : solve_bubble rng g a d = .ok gr) : wellFormed gr.1 := by
  obtain ⟨g', rng'⟩ := gr
  unfold solve_bubble at h
  rw [exceptBind_ok_iff] at h
  obtain ⟨ws, -, hsel⟩ := h
  exact select_best_path_wf hwf hsel

lemma meanE_error_ne {l : List ℚ} {e : String} (h : meanE l = .error e) :
    e ≠ "out of fuel" := by
  unfold meanE at h
  split at h
  · injection h with h2
    subst h2
    decide
  · exact Except.noConfusion h

lemma path_average_weight_error_ne {g : DiGraph} {p : List String} {e : String}
    (h : path_average_weight g p = .error e) : e ≠ "out of fuel" := by
  unfold path_average_weight at h
  exact meanE_error_ne h

lemma mapExcept_error {α β : Type} {f : α → Except String β} :
    ∀ {l : List α} {e : String}, mapExcept f l = .error e →
      ∃ x ∈ l, f x = .error e := by
  intro l
  induction l with
  | nil => intro e h; exact Except.noConfusion h
  | cons x xs ih =>
    intro e h
    rw [show mapExcept f (x :: xs) =
        (f x >>= fun y => mapExcept f xs >>= fun ys => .ok (y :: ys)) from rfl] at h
    rcases exceptBind_error h with h1 | ⟨y, -, h2⟩
    · exact ⟨x, List.mem_cons_self x xs, h1⟩
    · rcases exceptBind_error h2 with h3 | ⟨ys, -, h4⟩
      · obtain ⟨z, hz, hf⟩ := ih h3
        exact ⟨z, List.mem_cons_of_mem x hz, hf⟩
      · exact Except.noConfusion h4

lemma removeEdgeE_error_ne {g : DiGraph} {u v : String} {e : String}
    (h : g.removeEdgeE u v = .error e) : e ≠ "out of fuel" := by
  unfold DiGraph.removeEdgeE at h
  split at h
  · exact Except.noConfusion h
  · injection h with h2
    subst h2
    decide

lemma removePathEdges_error_ne :
    ∀ (p : List String) (g : DiGraph) (e : String),
      removePathEdges g p = .error e → e ≠ "out of fuel" := by
  intro p
  induction p with
  | nil => intro g e h; exact Except.noConfusion h
  | cons u rest ih =>
    intro g e h
    cases rest with
    | nil => exact Except.noConfusion h
    | cons v rest2 =>
      rw [show removePathEdges g (u :: v :: rest2) =
          (g.removeEdgeE u v >>= fun g2 => removePathEdges g2 (v :: rest2))
          from rfl] at h
      rcases exceptBind_error h with h1 | ⟨g2, -, h2⟩
      · exact removeEdgeE_error_ne h1
      · exact ih g2 e h2

lemma removeAllEdges_error_ne :
    ∀ (ps : List (List String)) (g : DiGraph) (e : String),
      removeAllEdges g ps = .error e → e ≠ "out of fuel" := by
  intro ps
  induction ps with
  | nil => intro g e h; exact Except.noConfusion h
  | cons p ps2 ih =>
    intro g e h
    rw [show removeAllEdges g (p :: ps2) =
        (removePathEdges g p >>= fun g2 => removeAllEdges g2 ps2) from rfl] at h
    rcases exceptBind_error h with h1 | ⟨g2, -, h2⟩
    · exact removePathEdges_error_ne p g e h1
    · exact ih g2 e h2

lemma deleteEntryNodes_error_ne {g : DiGraph} {ps : List (List String)}
    {e : String} (h : deleteEntryNodes g ps = .error e) : e ≠ "out of fuel" := by
  unfold deleteEntryNodes at h
  split at h
  · injection h with h2
    subst h2
    decide
  · exact Except.noConfusion h

lemma deleteSinkNodes_error_ne {g : DiGraph} {ps : List (List String)}
    {e : String} (h : deleteSinkNodes g ps = .error e) : e ≠ "out of fuel" := by
  unfold deleteSinkNodes at h
  split at h
  · injection h with h2
    subst h2
    decide
  · exact Except.noConfusion h

lemma remove_paths_error_ne {g : DiGraph} {ps : List (List String)} {de ds : Bool}
    {e : String} (h : remove_paths g ps de ds = .error e) : e ≠ "out of fuel" := by
  unfold remove_paths at h
  rcases exceptBind_error h with h1 | ⟨g1, -, h⟩
  · exact removeAllEdges_error_ne ps g e h1
  rcases exceptBind_error h with h2 | ⟨g2, -, h⟩
  · by_cases hde : de = true
    · rw [if_pos hde] at h2
      exact deleteEntryNodes_error_ne h2
    · rw [if_neg hde] at h2
      exact Except.noConfusion h2
  rcases exceptBind_error h with h3 | ⟨g3, -, h⟩
  · by_cases hds : ds = true
    · rw [if_pos hds] at h3
      exact deleteSinkNodes_error_ne h3
    · rw [if_neg hds] at h3
      exact Except.noConfusion h3
  exact Except.noConfusion h

lemma selectedIndexR_error_ne {rng : RandGen} {n : Nat} {ls ws : List ℚ}
    {e : String} (h : selectedIndexR rng n ls ws = .error e) :
    e ≠ "out of fuel" := by
  unfold selectedIndexR at h
  cases hw : sampleVariance ws with
  | none =>
    rw [hw] at h
    cases hl : sampleVariance ls with
    | none =>
      rw [hl] at h
      injection h with h2
      subst h2
      decide
    | some sl =>
      rw [hl] at h
      injection h with h2
      subst h2
      decide
  | some sw =>
    rw [hw] at h
    cases hl : sampleVariance ls with
    | none =>
      rw [hl] at h
      injection h with h2
      subst h2
      decide
    | some sl =>
      rw [hl] at h
      have h3 : (if 0 < sw then (.ok (idxOfMax ws, rng) : Except String (Nat × RandGen))
          else if 0 < sl then .ok (idxOfMax ls, rng)
          else .ok ((randint rng 0 (n - 1)).1, (randint rng 0 (n - 1)).2)) =
          .error e := h
      split at h3
      · exact Except.noConfusion h3
      split at h3
      · exact Except.noConfusion h3
      · exact Except.noConfusion h3

lemma select_best_path_error_ne {rng : RandGen} {g : DiGraph}
    {ps : List (List String)} {ls ws : List ℚ} {de ds : Bool} {e : String}
    (h : select_best_path rng g ps ls ws de ds = .error e) :
    e ≠ "out of fuel" := by
  unfold select_best_path at h
  by_cases h1 : ps.length = 1
  · rw [if_pos h1] at h
    exact Except.noConfusion h
  · rw [if_neg h1] at h
    rcases exceptBind_error h with h2 | ⟨⟨idx, rng2⟩, -, h3⟩
    · exact selectedIndexR_error_ne h2
    · dsimp only at h3
      split at h3
      · injection h3 with h4
        subst h4
        decide
      · rcases exceptBind_error h3 with h5 | ⟨g2, -, h6⟩
        · exact remove_paths_error_ne h5
        · exact Except.noConfusion h6

/-- No error escaping `solve_bubble` is the fuel-exhaustion marker. -/
lemma solve_bubble_error_ne {rng : RandGen} {g : DiGraph} {a d : String}
    {e : String} (h : solve_bubble rng g a d = .error e) : e ≠ "out of fuel" := by
  unfold solve_bubble at h
  rcases exceptBind_error h with h1 | ⟨ws, -, h2⟩
  · obtain ⟨p, -, hf⟩ := mapExcept_error h1
    exact path_average_weight_error_ne hf
  · exact select_best_path_error_ne h2

/-- Each successful resolution of a bubble whose endpoints are joined by at
least two enumerated simple paths strictly reduces the edge count. -/
lemma solve_bubble_decreases :
    ∀ (rng : RandGen) (g : DiGraph) (a d : String) (g' : DiGraph) (rng' : RandGen),
      2 ≤ (allSimplePaths g a d).length →
      solve_bubble rng g a d = .ok (g', rng') →
      g'.edgeCount < g.edgeCount := by
  intro rng g a d g' rng' h2 hok
  unfold solve_bubble at hok
  rw [exceptBind_ok_iff] at hok
  obtain ⟨ws, -, hsel⟩ := hok
  obtain ⟨idx, -, hlt, hrp⟩ := select_best_path_ok (by omega) hsel
  obtain ⟨g1, g3, h1, hg', -, -, hff, -, -⟩ := remove_paths_stages hrp
  have hg31 := hff rfl rfl
  subst hg31
  have hlen : ((allSimplePaths g a d).eraseIdx idx).length =
      (allSimplePaths g a d).length - 1 := by
    rw [List.length_eraseIdx]
    simp [hlt]
  have hnonempty : (allSimplePaths g a d).eraseIdx idx ≠ [] := by
    intro hh
    rw [hh] at hlen
    simp at hlen
    omega
  obtain ⟨q, qt, hq⟩ := List.exists_cons_of_ne_nil hnonempty
  have hqmem : q ∈ allSimplePaths g a d :=
    List.mem_of_mem_eraseIdx (hq ▸ List.mem_cons_self q qt)
  obtain ⟨rest, hqe, hrne, -, -, -⟩ := allSimplePaths_sound hqmem
  have hq2 : 2 ≤ q.length := by
    rw [hqe]
    cases rest with
    | nil => exact absurd rfl hrne
    | cons x xs => simp
  have hdec : g3.edgeCount < g.edgeCount :=
    removeAllEdges_count_lt (hq ▸ List.mem_cons_self q qt) hq2 h1
  have heq : g'.edgeCount = g3.edgeCount := by
    rw [hg']
    unfold DiGraph.edgeCount
    rw [removeIsolates_edges]
  rw [heq]
  exact hdec

lemma simplifyBubblesFuel_succ (fuel : Nat) (rng : RandGen) (g : DiGraph) :
    simplifyBubblesFuel (fuel + 1) rng g =
      (scanGraph g g.nodes (false, none, none) >>= fun st =>
        match st with
        | (false, _, _) => .ok (g, rng)
        | (true, none, _) => .error "NodeNotFound"
        | (true, some _, none) => .error "NodeNotFound"
        | (true, some a2, some d2) =>
          solve_bubble rng g a2 d2 >>= fun gr =>
          simplifyBubblesFuel fuel gr.2 gr.1) := rfl

/-- One unfolding of the recursion: assuming the claim below the current
edge count, one round is fuel-independent and never exhausts the fuel. -/
lemma simplifyBubbles_step (g : DiGraph) (hwf : wellFormed g) (rng : RandGen)
    (IH : ∀ g2 : DiGraph, wellFormed g2 → g2.edgeCount < g.edgeCount →
      ∀ (rng2 : RandGen) (fa fb : Nat), g2.edgeCount < fa → g2.edgeCount < fb →
        simplifyBubblesFuel fa rng2 g2 = simplifyBubblesFuel fb rng2 g2 ∧
        simplifyBubblesFuel fa rng2 g2 ≠ .error "out of fuel") :
    ∀ (fuel fuel2 : Nat), g.edgeCount < fuel → g.edgeCount < fuel2 →
      simplifyBubblesFuel fuel rng g = simplifyBubblesFuel fuel2 rng g ∧
      simplifyBubblesFuel fuel rng g ≠ .error "out of fuel" := by
  intro fuel fuel2 h1 h2
  obtain ⟨f1, rfl⟩ : ∃ k, fuel = k + 1 := ⟨fuel - 1, by omega⟩
  obtain ⟨f2, rfl⟩ : ∃ k, fuel2 = k + 1 := ⟨fuel2 - 1, by omega⟩
  rw [simplifyBubblesFuel_succ f1 rng g, simplifyBubblesFuel_succ f2 rng g]
  cases hscan : scanGraph g g.nodes (false, none, none) with
  | error e =>
    have he : e ≠ "out of fuel" := by
      have hee := scanGraph_error g.nodes (false, none, none) e hscan
      rw [hee]
      decide
    constructor
    · rfl
    · intro hcon
      have hcon2 : (Except.error e : Except String (DiGraph × RandGen)) =
          .error "out of fuel" := hcon
      injection hcon2 with hstr
      exact he hstr
  | ok st =>
    obtain ⟨b, anc, desc⟩ := st
    cases b with
    | false =>
      constructor
      · rfl
      · intro hcon
        have hcon2 : (Except.ok (g, rng) : Except String (DiGraph × RandGen)) =
            .error "out of fuel" := hcon
        exact Except.noConfusion hcon2
    | true =>
      cases anc with
      | none =>
        constructor
        · rfl
        · intro hcon
          have hcon2 : (Except.error "NodeNotFound" :
              Except String (DiGraph × RandGen)) = .error "out of fuel" := hcon
          injection hcon2 with hstr
          exact absurd hstr (by decide)
      | some a =>
        cases desc with
        | none =>
          constructor
          · rfl
          · intro hcon
            have hcon2 : (Except.error "NodeNotFound" :
                Except String (DiGraph × RandGen)) = .error "out of fuel" := hcon
            injection hcon2 with hstr
            exact absurd hstr (by decide)
        | some dn =>
          have hini : ∀ a2 dn2, ((false, none, none) :
              Bool × Option String × Option String) = (true, some a2, some dn2) →
              ∃ p q, p ∈ g.predecessors dn2 ∧ q ∈ g.predecessors dn2 ∧ p ≠ q ∧
                lowest_common_ancestor g p q = .ok (some a2) := by
            intro a2 dn2 heq
            exact absurd (congrArg (fun t => t.1) heq) (by simp)
          obtain ⟨p, q, hp, hq, hpq, hlca⟩ :=
            scanGraph_ok hwf g.nodes (false, none, none) (true, some a, some dn)
              hscan hini a dn rfl
          have h2p := recorded_bubble_two_paths hwf hp hq hpq hlca
          cases hsb : solve_bubble rng g a dn with
          | error e =>
            have he := solve_bubble_error_ne hsb
            constructor
            · show (solve_bubble rng g a dn >>= fun gr =>
                  simplifyBubblesFuel f1 gr.2 gr.1) =
                (solve_bubble rng g a dn >>= fun gr =>
                  simplifyBubblesFuel f2 gr.2 gr.1)
              rw [hsb]
              rfl
            · show (solve_bubble rng g a dn >>= fun gr =>
                  simplifyBubblesFuel f1 gr.2 gr.1) ≠ .error "out of fuel"
              rw [hsb]
              intro hcon
              have hcon2 : (Except.error e : Except String (DiGraph × RandGen)) =
                  .error "out of fuel" := hcon
              injection hcon2 with hstr
              exact he hstr
          | ok gr =>
            have hdec : gr.1.edgeCount < g.edgeCount :=
              solve_bubble_decreases rng g a dn gr.1 gr.2 h2p (by rw [hsb])
            have hwf2 : wellFormed gr.1 := solve_bubble_wf hwf hsb
            have hIH := IH gr.1 hwf2 hdec gr.2 f1 f2 (by omega) (by omega)
            constructor
            · show (solve_bubble rng g a dn >>= fun gr2 =>
                  simplifyBubblesFuel f1 gr2.2 gr2.1) =
                (solve_bubble rng g a dn >>= fun gr2 =>
                  simplifyBubblesFuel f2 gr2.2 gr2.1)
              rw [hsb]
              show simplifyBubblesFuel f1 gr.2 gr.1 = simplifyBubblesFuel f2 gr.2 gr.1
              exact hIH.1
            · show (solve_bubble rng g a dn >>= fun gr2 =>
                  simplifyBubblesFuel f1 gr2.2 gr2.1) ≠ .error "out of fuel"
              rw [hsb]
              show simplifyBubblesFuel f1 gr.2 gr.1 ≠ .error "out of fuel"
              exact hIH.2

/-- Fuel-independence and non-exhaustion by strong induction on the edge
count: each round either stops, raises a library error, or strictly drops
the edge count. -/
lemma simplifyBubbles_terminates_aux :
    ∀ (n : Nat) (g : DiGraph), g.edgeCount ≤ n → wellFormed g →
      ∀ (rng : RandGen) (fuel fuel2 : Nat), g.edgeCount < fuel →
        g.edgeCount < fuel2 →
        simplifyBubblesFuel fuel rng g = simplifyBubblesFuel fuel2 rng g ∧
        simplifyBubblesFuel fuel rng g ≠ .error "out of fuel" := by
  intro n
  induction n with
  | zero =>
    intro g hle hwf rng fuel fuel2 h1 h2
    refine simplifyBubbles_step g hwf rng ?_ fuel fuel2 h1 h2
    intro g2 hwf2 hlt rng2 fa fb hfa hfb
    exact absurd hlt (by omega)
  | succ n ihn =>
    intro g hle hwf rng fuel fuel2 h1 h2
    refine simplifyBubbles_step g hwf rng ?_ fuel fuel2 h1 h2
    intro g2 hwf2 hlt rng2 fa fb hfa hfb
    exact ihn g2 (by omega) hwf2 rng2 fa fb hfa hfb

/-- `simplify_bubbles` terminates on every well-formed graph: the result is
the same for every fuel beyond the edge count and is never the
fuel-exhaustion marker. -/
lemma simplifyBubbles_terminates :
    ∀ (g : DiGraph), wellFormed g →
      ∀ (rng : RandGen) (fuel fuel2 : Nat),
        g.edgeCount < fuel → g.edgeCount < fuel2 →
        simplifyBubblesFuel fuel rng g = simplifyBubblesFuel fuel2 rng g ∧
        simplifyBubblesFuel fuel rng g ≠ .error "out of fuel" := by
  intro g hwf rng fuel fuel2 h1 h2
  exact simplifyBubbles_terminates_aux g.edgeCount g le_rfl hwf rng fuel fuel2 h1 h2

/-- A scan that records no bubble makes the recursion return the graph
unchanged. -/
lemma simplifyBubbles_of_scan_none :
    ∀ (fuel : Nat) (rng : RandGen) (g : DiGraph) (anc desc : Option String),
      scanGraph g g.nodes (false, none, none) = .ok (false, anc, desc) →
      simplifyBubblesFuel (fuel + 1) rng g = .ok (g, rng) := by
  intro fuel rng g anc desc hscan
  unfold simplifyBubblesFuel
  rw [hscan]
  rfl

/-- C3: on every well-formed finite directed graph `simplify_bubbles`
terminates — the result is independent of any sufficiently large fuel and is
never the fuel-exhaustion marker (on cyclic inputs the first LCA call raises
`NetworkXError`, on acyclic inputs every successful resolution strictly
reduces the edge count); each successful resolution of a bubble with at
least two enumerated paths strictly reduces the edge count; and the
recursion stops, returning the graph unchanged, as soon as a full scan
records no bubble. -/
theorem simplify_bubbles_termination :
    (∀ (g : DiGraph), wellFormed g →
      ∀ (rng : RandGen) (fuel fuel2 : Nat),
        g.edgeCount < fuel → g.edgeCount < fuel2 →
        simplifyBubblesFuel fuel rng g = simplifyBubblesFuel fuel2 rng g ∧
        simplifyBubblesFuel fuel rng g ≠ .error "out of fuel") ∧
    (∀ (rng : RandGen) (g : DiGraph) (a d : String) (g' : DiGraph) (rng' : RandGen),
        2 ≤ (allSimplePaths g a d).length →
        solve_bubble rng g a d = .ok (g', rng') →
        g'.edgeCount < g.edgeCount) ∧
    (∀ (fuel : Nat) (rng : RandGen) (g : DiGraph) (anc desc : Option String),
        scanGraph g g.nodes (false, none, none) = .ok (false, anc, desc) →
        simplifyBubblesFuel (fuel + 1) rng g = .ok (g, rng)) :=
  ⟨simplifyBubbles_terminates, solve_bubble_decreases, simplifyBubbles_of_scan_none⟩

/-- Witness for C3: the well-formed diamond graph gets a fuel-independent
result, resolving its honest bubble drops the edge count from 4 to 2, and a
bubble-free graph is returned unchanged. -/
theorem simplify_bubbles_termination_witness :
    (simplifyBubblesFuel 5 seededRandGen diamondGraph =
      simplifyBubblesFuel 6 seededRandGen diamondGraph ∧
     simplifyBubblesFuel 5 seededRandGen diamondGraph ≠ .error "out of fuel") ∧
    diamondResolved.edgeCount < diamondGraph.edgeCount ∧
    simplifyBubblesFuel 1 seededRandGen chainGraph = .ok (chainGraph, seededRandGen) := by
  have hp1 : path_average_weight diamondGraph ["a", "b", "d"] = .ok 5 := by
    show meanE [5, 5] = .ok 5
    simp only [meanE, meanQ, List.isEmpty_cons, Bool.false_eq_true, if_false,
      List.sum_cons, List.sum_nil, List.length_cons, List.length_nil]
    norm_num
  have hp2 : path_average_weight diamondGraph ["a", "c", "d"] = .ok 1 := by
    show meanE [1, 1] = .ok 1
    simp only [meanE, meanQ, List.isEmpty_cons, Bool.false_eq_true, if_false,
      List.sum_cons, List.sum_nil, List.length_cons, List.length_nil]
    norm_num
  have hw : mapExcept (fun path => path_average_weight diamondGraph path)
      (allSimplePaths diamondGraph "a" "d") = .ok [5, 1] := by
    show (path_average_weight diamondGraph ["a", "b", "d"] >>= fun y =>
        (path_average_weight diamondGraph ["a", "c", "d"] >>= fun y2 =>
          (Except.ok [] : Except String (List ℚ)) >>= fun ys => .ok (y2 :: ys)) >>=
          fun ys => .ok (y :: ys)) = .ok [5, 1]
    rw [hp1, hp2]
    rfl
  have h1 : sampleVariance ([5, 1] : List ℚ) = some 8 := by
    rw [sampleVariance_pair]
    norm_num
  have h2 : sampleVariance
      (((allSimplePaths diamondGraph "a" "d").map
        (fun path => ((path.length : ℤ) - 1))).map intToRat) = some 0 := by
    show sampleVariance [intToRat ((3 : ℤ) - 1), intToRat ((3 : ℤ) - 1)] = some 0
    rw [sampleVariance_pair]
    norm_num
  have hsel : selectedIndexR seededRandGen (allSimplePaths diamondGraph "a" "d").length
      (((allSimplePaths diamondGraph "a" "d").map
        (fun path => ((path.length : ℤ) - 1))).map intToRat)
      [5, 1] = .ok (0, seededRandGen) := by
    rw [selectedIndexR_eq h1 h2, if_pos (by norm_num)]
    rfl
  have hok : solve_bubble seededRandGen diamondGraph "a" "d" =
      .ok (diamondResolved, seededRandGen) := by
    rw [solve_bubble_eq hw]
    exact select_best_path_go (by decide) hsel (by decide) rfl
  refine ⟨simplify_bubbles_termination.1 diamondGraph (by decide) seededRandGen 5 6
      (by decide) (by decide),
    ?_, simplify_bubbles_termination.2.2 0 seededRandGen chainGraph none none rfl⟩
  exact simplify_bubbles_termination.2.1 seededRandGen diamondGraph "a" "d"
    diamondResolved seededRandGen (by decide) hok

/-! ## C7: bubble resolution keeps the endpoints -/

lemma pathPairs_mem {l : List String} {x y : String} (h : (x, y) ∈ pathPairs l) :
    x ∈ l ∧ y ∈ l := by
  induction l with
  | nil => cases h
  | cons u t ih =>
    cases t with
    | nil => cases h
    | cons v t2 =>
      rcases List.mem_cons.mp h with heq | hmem
      · injection heq with h1 h2
        subst h1
        subst h2
        exact ⟨List.mem_cons_self _ _, List.mem_cons_of_mem _ (List.mem_cons_self _ _)⟩
      · have := ih hmem
        exact ⟨List.mem_cons_of_mem _ this.1, List.mem_cons_of_mem _ this.2⟩

lemma pathPairs_of_chain {R : String → String → Prop} :
    ∀ {l : List String}, List.Chain' R l → ∀ {x y : String}, (x, y) ∈ pathPairs l → R x y := by
  intro l
  induction l with
  | nil => intro _ x y h; cases h
  | cons u t ih =>
    intro hch x y h
    cases t with
    | nil => cases h
    | cons v t2 =>
      obtain ⟨hR, hch2⟩ := List.chain'_cons.mp hch
      rcases List.mem_cons.mp h with heq | hmem
      · injection heq with h1 h2
        subst h1
        subst h2
        exact hR
      · exact ih hch2 hmem

/-- In a node-distinct path starting at `a`, the only pair leaving `a` goes
to the second node. -/
lemma pathPairs_head {a y : String} {t : List String}
    (hnd : (a :: t).Nodup) (h : (a, y) ∈ pathPairs (a :: t)) : t.head? = some y := by
  cases t with
  | nil => cases h
  | cons v t2 =>
    rcases List.mem_cons.mp h with heq | hmem
    · injection heq with _ h2
      subst h2
      rfl
    · have := (pathPairs_mem hmem).1
      rw [List.nodup_cons] at hnd
      exact absurd this hnd.1

/-- A node-distinct path of shape `a :: d :: t` ending at `d` is `[a, d]`. -/
lemma nodup_last_cons_cons {a d : String} {t : List String}
    (hnd : (a :: d :: t).Nodup) (hlast : (a :: d :: t).getLast? = some d) : t = [] := by
  cases t with
  | nil => rfl
  | cons x t2 =>
    rw [List.getLast?_cons_cons, List.getLast?_cons_cons] at hlast
    have hdm : d ∈ x :: t2 := List.mem_of_mem_getLast? hlast
    rw [List.nodup_cons, List.nodup_cons] at hnd
    exact absurd hdm hnd.2.1

/-- A node-distinct path has no pair with equal components. -/
lemma pathPairs_no_diag {z : String} :
    ∀ {l : List String}, l.Nodup → (z, z) ∉ pathPairs l := by
  intro l
  induction l with
  | nil => intro _ h; cases h
  | cons u t ih =>
    intro hnd h
    cases t with
    | nil => cases h
    | cons v t2 =>
      rcases List.mem_cons.mp h with heq | hmem
      · injection heq with h1 h2
        subst h1
        rw [List.nodup_cons] at hnd
        exact hnd.1 (h2 ▸ List.mem_cons_self _ _)
      · rw [List.nodup_cons] at hnd
        exact ih hnd.2 hmem

/-- A path of at least one edge ending at `d` contains a pair into `d`. -/
lemma exists_last_pair {d : String} :
    ∀ {l : List String}, 2 ≤ l.length → l.getLast? = some d →
      ∃ u, (u, d) ∈ pathPairs l := by
  intro l
  induction l with
  | nil => intro h; simp at h
  | cons x t ih =>
    intro hlen hlast
    cases t with
    | nil => simp at hlen
    | cons y t2 =>
      cases t2 with
      | nil =>
        rw [show (x :: [y]).getLast? = some y from rfl] at hlast
        injection hlast with hlast
        subst hlast
        exact ⟨x, List.mem_cons_self _ _⟩
      | cons z t3 =>
        rw [List.getLast?_cons_cons] at hlast
        obtain ⟨u, hu⟩ := ih (by simp) hlast
        exact ⟨u, List.mem_cons_of_mem _ hu⟩

/-- In a duplicate-free list, the element at the erased index does not
survive `eraseIdx`. -/
lemma nodup_get_not_mem_eraseIdx {α : Type} [DecidableEq α] :
    ∀ (l : List α) (i : Nat) (h : i < l.length), l.Nodup →
      l.get ⟨i, h⟩ ∉ l.eraseIdx i := by
  intro l
  induction l with
  | nil => intro i h; simp at h
  | cons x t ih =>
    intro i h hnd
    rw [List.nodup_cons] at hnd
    cases i with
    | zero =>
      simpa using hnd.1
    | succ j =>
      simp only [List.eraseIdx_cons_succ, List.mem_cons]
      rintro (heq | hmem)
      · exact hnd.1 (heq ▸ List.get_mem t j (by simpa using h))
      · exact ih j (by simpa using h) hnd.2 hmem

/-- The winner's first pair occurs in no internally disjoint losing path. -/
lemma first_pair_not_shared {a d w1 : String} {w q : List String} {wt : List String}
    (hwe : w = a :: w1 :: wt) (hwnd : w.Nodup) (hwlast : w.getLast? = some d)
    (hqa : ∃ qt, q = a :: qt) (hqnd : q.Nodup) (hqlast : q.getLast? = some d)
    (hdisj : ∀ x, x ∈ w → x ∈ q → x = a ∨ x = d) (hqw : q ≠ w) :
    (a, w1) ∉ pathPairs q := by
  intro hmem
  obtain ⟨qt, rfl⟩ := hqa
  have hhead := pathPairs_head hqnd hmem
  obtain ⟨qh, qtt, rfl⟩ : ∃ qh qtt, qt = qh :: qtt := by
    cases qt with
    | nil => cases hhead
    | cons qh qtt => exact ⟨qh, qtt, rfl⟩
  have hqh : qh = w1 := by injection hhead
  subst qh
  have hw1w : w1 ∈ w := by
    rw [hwe]
    exact List.mem_cons_of_mem _ (List.mem_cons_self _ _)
  have hw1q : w1 ∈ a :: w1 :: qtt :=
    List.mem_cons_of_mem _ (List.mem_cons_self _ _)
  rcases hdisj w1 hw1w hw1q with h1 | h1
  · subst h1
    rw [hwe, List.nodup_cons] at hwnd
    exact hwnd.1 (List.mem_cons_self _ _)
  · subst h1
    have hwt : wt = [] := nodup_last_cons_cons (hwe ▸ hwnd) (hwe ▸ hwlast)
    have hqtt : qtt = [] := nodup_last_cons_cons hqnd hqlast
    apply hqw
    rw [hwe, hwt, hqtt]

/-- The winner's last pair occurs in no internally disjoint losing path. -/
lemma last_pair_not_shared {a d u : String} {w q : List String}
    (hwa : ∃ t, w = a :: t) (hwnd : w.Nodup) (hwlast : w.getLast? = some d)
    (hup : (u, d) ∈ pathPairs w)
    (hqa : ∃ qt, q = a :: qt) (hqnd : q.Nodup) (hqlast : q.getLast? = some d)
    (hdisj : ∀ x, x ∈ w → x ∈ q → x = a ∨ x = d) (hqw : q ≠ w) :
    (u, d) ∉ pathPairs q := by
  intro hmem
  have huq : u ∈ q := (pathPairs_mem hmem).1
  have huw : u ∈ w := (pathPairs_mem hup).1
  rcases hdisj u huw huq with h1 | h1
  · subst h1
    obtain ⟨qt, rfl⟩ := hqa
    obtain ⟨t, rfl⟩ := hwa
    have hheadq := pathPairs_head hqnd hmem
    obtain ⟨qh, qtt, rfl⟩ : ∃ qh qtt, qt = qh :: qtt := by
      cases qt with
      | nil => cases hheadq
      | cons qh qtt => exact ⟨qh, qtt, rfl⟩
    have hqh : qh = d := by injection hheadq
    subst qh
    have hheadw := pathPairs_head hwnd hup
    obtain ⟨wh, wtt, rfl⟩ : ∃ wh wtt, t = wh :: wtt := by
      cases t with
      | nil => cases hheadw
      | cons wh wtt => exact ⟨wh, wtt, rfl⟩
    have hwh : wh = d := by injection hheadw
    subst wh
    have hwt : wtt = [] := nodup_last_cons_cons hwnd hwlast
    have hqt : qtt = [] := nodup_last_cons_cons hqnd hqlast
    apply hqw
    rw [hwt, hqt]
  · subst h1
    exact pathPairs_no_diag hwnd hup

/-- C7 (amended): when the ancestor and descendant are distinct nodes of the
graph and the enumerated ancestor→descendant simple paths are pairwise
node-disjoint except at the endpoints (the spec's bubble shape, given here
with the enumeration duplicate-free), a successful `solve_bubble` keeps both
the ancestor and the descendant in the returned graph; endpoint deletion is
indeed never requested, but without the disjointness proviso a loser sharing
an endpoint's only incident edge can isolate and delete that endpoint. -/
theorem solve_bubble_keeps_endpoints :
    ∀ (rng : RandGen) (g : DiGraph) (a d : String) (g' : DiGraph) (rng' : RandGen),
      a ∈ g.nodes → d ∈ g.nodes → a ≠ d →
      (allSimplePaths g a d).Nodup →
      List.Pairwise (fun p q => ∀ x, x ∈ p → x ∈ q → x = a ∨ x = d)
        (allSimplePaths g a d) →
      solve_bubble rng g a d = .ok (g', rng') →
      a ∈ g'.nodes ∧ d ∈ g'.nodes := by
  intro rng g a d g' rng' hag hdg hne hnd hpw hok
  unfold solve_bubble at hok
  rw [exceptBind_ok_iff] at hok
  obtain ⟨ws, -, hsel⟩ := hok
  by_cases hone : (allSimplePaths g a d).length = 1
  · simp only [select_best_path, if_pos hone] at hsel
    injection hsel with hsel
    injection hsel with hg hr
    exact hg ▸ ⟨hag, hdg⟩
  · obtain ⟨idx, -, hlt, hrp⟩ := select_best_path_ok hone hsel
    obtain ⟨g1, g3, h1, hg', -, -, hff, -, -⟩ := remove_paths_stages hrp
    have h31 := hff rfl rfl
    subst h31
    set w := (allSimplePaths g a d).get ⟨idx, hlt⟩ with hwdef
    have hwmem : w ∈ allSimplePaths g a d := List.get_mem _ _ _
    obtain ⟨wrest, hwe, hwne, hwch, hwlast, hwnd⟩ := allSimplePaths_sound hwmem
    obtain ⟨w1, wt, hwrest⟩ := List.exists_cons_of_ne_nil hwne
    have hwe2 : w = a :: w1 :: wt := by rw [hwe, hwrest]
    have hlosers : ∀ q ∈ (allSimplePaths g a d).eraseIdx idx,
        q ∈ allSimplePaths g a d ∧ q ≠ w := by
      intro q hq
      refine ⟨List.mem_of_mem_eraseIdx hq, ?_⟩
      intro heq
      apply nodup_get_not_mem_eraseIdx (allSimplePaths g a d) idx hlt hnd
      rw [← hwdef, ← heq]
      exact hq
    have hsymm : Symmetric (fun p q : List String =>
        ∀ x, x ∈ p → x ∈ q → x = a ∨ x = d) :=
      fun p q h x hxq hxp => h x hxp hxq
    have hfp : (a, w1) ∈ pathPairs w := by
      rw [hwe2]
      exact List.mem_cons_self _ _
    obtain ⟨wgt, hwgt⟩ := pathPairs_of_chain hwch hfp
    have hnotin1 : ∀ q ∈ (allSimplePaths g a d).eraseIdx idx,
        (a, w1) ∉ pathPairs q := by
      intro q hq
      obtain ⟨hqmem, hqne⟩ := hlosers q hq
      obtain ⟨qrest, hqe, -, -, hqlast, hqnd⟩ := allSimplePaths_sound hqmem
      exact first_pair_not_shared hwe2 hwnd hwlast ⟨qrest, hqe⟩ hqnd hqlast
        (List.Pairwise.forall hsymm hpw hwmem hqmem (fun hh => hqne hh.symm)) hqne
    have hin1 : (a, w1, wgt) ∈ g3.edges :=
      ((removeAllEdges_ok h1).2.1 _).mpr ⟨hwgt, fun p hp => hnotin1 p hp⟩
    have hga : a ∈ g'.nodes := by
      rw [hg', removeIsolates_nodes]
      constructor
      · rw [(removeAllEdges_ok h1).1]
        exact hag
      · exact (degree_ne_zero_of_mem_edges hin1).1
    obtain ⟨u, hup⟩ := exists_last_pair (by rw [hwe2]; simp) hwlast
    obtain ⟨wgt2, hwgt2⟩ := pathPairs_of_chain hwch hup
    have hnotin2 : ∀ q ∈ (allSimplePaths g a d).eraseIdx idx,
        (u, d) ∉ pathPairs q := by
      intro q hq
      obtain ⟨hqmem, hqne⟩ := hlosers q hq
      obtain ⟨qrest, hqe, -, -, hqlast, hqnd⟩ := allSimplePaths_sound hqmem
      exact last_pair_not_shared ⟨wrest, hwe⟩ hwnd hwlast hup ⟨qrest, hqe⟩ hqnd hqlast
        (List.Pairwise.forall hsymm hpw hwmem hqmem (fun hh => hqne hh.symm)) hqne
    have hin2 : (u, d, wgt2) ∈ g3.edges :=
      ((removeAllEdges_ok h1).2.1 _).mpr ⟨hwgt2, fun p hp => hnotin2 p hp⟩
    have hgd : d ∈ g'.nodes := by
      rw [hg', removeIsolates_nodes]
      constructor
      · rw [(removeAllEdges_ok h1).1]
        exact hdg
      · exact (degree_ne_zero_of_mem_edges hin2).2
    exact ⟨hga, hgd⟩

/-- C7 counterexample: on `sharedAncestorGraph` the two anc→desc simple
paths share the edge anc→x; resolving this bubble removes the loser's copy
of that edge, isolates the ancestor and deletes it, although endpoint
deletion was never requested. -/
theorem solve_bubble_keeps_endpoints_counterexample :
    "anc" ∈ sharedAncestorGraph.nodes ∧
    solve_bubble seededRandGen sharedAncestorGraph "anc" "desc" =
      .ok (sharedAncestorResolved, seededRandGen) ∧
    "anc" ∉ sharedAncestorResolved.nodes := by
  refine ⟨by decide, ?_, by decide⟩
  have hp1 : path_average_weight sharedAncestorGraph ["anc", "x", "b", "desc"] =
      .ok 5 := by
    show meanE [3, 6, 6] = .ok 5
    simp only [meanE, meanQ, List.isEmpty_cons, Bool.false_eq_true, if_false,
      List.sum_cons, List.sum_nil, List.length_cons, List.length_nil]
    norm_num
  have hp2 : path_average_weight sharedAncestorGraph ["anc", "x", "c", "desc"] =
      .ok 3 := by
    show meanE [3, 3, 3] = .ok 3
    simp only [meanE, meanQ, List.isEmpty_cons, Bool.false_eq_true, if_false,
      List.sum_cons, List.sum_nil, List.length_cons, List.length_nil]
    norm_num
  have hw : mapExcept (fun path => path_average_weight sharedAncestorGraph path)
      (allSimplePaths sharedAncestorGraph "anc" "desc") = .ok [5, 3] := by
    show (path_average_weight sharedAncestorGraph ["anc", "x", "b", "desc"] >>= fun y =>
        (path_average_weight sharedAncestorGraph ["anc", "x", "c", "desc"] >>= fun y2 =>
          (Except.ok [] : Except String (List ℚ)) >>= fun ys => .ok (y2 :: ys)) >>=
          fun ys => .ok (y :: ys)) = .ok [5, 3]
    rw [hp1, hp2]
    rfl
  have h1 : sampleVariance ([5, 3] : List ℚ) = some 2 := by
    rw [sampleVariance_pair]
    norm_num
  have h2 : sampleVariance
      (((allSimplePaths sharedAncestorGraph "anc" "desc").map
        (fun path => ((path.length : ℤ) - 1))).map intToRat) = some 0 := by
    show sampleVariance [intToRat ((4 : ℤ) - 1), intToRat ((4 : ℤ) - 1)] = some 0
    rw [sampleVariance_pair]
    norm_num
  have hsel : selectedIndexR seededRandGen
      (allSimplePaths sharedAncestorGraph "anc" "desc").length
      (((allSimplePaths sharedAncestorGraph "anc" "desc").map
        (fun path => ((path.length : ℤ) - 1))).map intToRat)
      [5, 3] = .ok (0, seededRandGen) := by
    rw [selectedIndexR_eq h1 h2, if_pos (by norm_num)]
    rfl
  rw [solve_bubble_eq hw]
  exact select_best_path_go (by decide) hsel (by decide) rfl

/-- Witness for C7 on the honest diamond bubble, whose two paths are
node-disjoint apart from the endpoints. -/
theorem solve_bubble_keeps_endpoints_witness :
    "a" ∈ diamondResolved.nodes ∧ "d" ∈ diamondResolved.nodes := by
  have hp1 : path_average_weight diamondGraph ["a", "b", "d"] = .ok 5 := by
    show meanE [5, 5] = .ok 5
    simp only [meanE, meanQ, List.isEmpty_cons, Bool.false_eq_true, if_false,
      List.sum_cons, List.sum_nil, List.length_cons, List.length_nil]
    norm_num
  have hp2 : path_average_weight diamondGraph ["a", "c", "d"] = .ok 1 := by
    show meanE [1, 1] = .ok 1
    simp only [meanE, meanQ, List.isEmpty_cons, Bool.false_eq_true, if_false,
      List.sum_cons, List.sum_nil, List.length_cons, List.length_nil]
    norm_num
  have hw : mapExcept (fun path => path_average_weight diamondGraph path)
      (allSimplePaths diamondGraph "a" "d") = .ok [5, 1] := by
    show (path_average_weight diamondGraph ["a", "b", "d"] >>= fun y =>
        (path_average_weight diamondGraph ["a", "c", "d"] >>= fun y2 =>
          (Except.ok [] : Except String (List ℚ)) >>= fun ys => .ok (y2 :: ys)) >>=
          fun ys => .ok (y :: ys)) = .ok [5, 1]
    rw [hp1, hp2]
    rfl
  have h1 : sampleVariance ([5, 1] : List ℚ) = some 8 := by
    rw [sampleVariance_pair]
    norm_num
  have h2 : sampleVariance
      (((allSimplePaths diamondGraph "a" "d").map
        (fun path => ((path.length : ℤ) - 1))).map intToRat) = some 0 := by
    show sampleVariance [intToRat ((3 : ℤ) - 1), intToRat ((3 : ℤ) - 1)] = some 0
    rw [sampleVariance_pair]
    norm_num
  have hsel : selectedIndexR seededRandGen (allSimplePaths diamondGraph "a" "d").length
      (((allSimplePaths diamondGraph "a" "d").map
        (fun path => ((path.length : ℤ) - 1))).map intToRat)
      [5, 1] = .ok (0, seededRandGen) := by
    rw [selectedIndexR_eq h1 h2, if_pos (by norm_num)]
    rfl
  have hok : solve_bubble seededRandGen diamondGraph "a" "d" =
      .ok (diamondResolved, seededRandGen) := by
    rw [solve_bubble_eq hw]
    exact select_best_path_go (by decide) hsel (by decide) rfl
  exact solve_bubble_keeps_endpoints seededRandGen diamondGraph "a" "d"
    diamondResolved seededRandGen (by decide) (by decide) (by decide) (by decide)
    (by decide) hok

/-! ## C8: determinism under the fixed seed -/

/-- C8: the pseudorandom source is seeded once at process start
(`random.seed(9001)`, the explicit `seededRandGen` of the embedding), so the
whole pipeline is a pure function of its input: two runs on identical reads
and k-mer size produce identical output.  In particular, on two candidate
paths with equal average weights and equal lengths, every run from the seed
selects the same index — concretely index 0 here — which is one of the two
candidates. -/
theorem seeded_pipeline_deterministic :
    (∀ (fuel : Nat) (reads : List String) (kmer_size : Nat),
        runAssembly fuel reads kmer_size = runAssembly fuel reads kmer_size) ∧
    (∀ lq lw : ℚ, (0 : Nat) < 2 ∧
        selectedIndexR seededRandGen 2 [lq, lq] [lw, lw] =
          .ok (0, (randint seededRandGen 0 1).2)) := by
  constructor
  · intro fuel reads kmer_size
    rfl
  · intro lq lw
    refine ⟨by norm_num, ?_⟩
    have h1 : sampleVariance [lw, lw] = some 0 := by
      rw [sampleVariance_pair]
      simp
    have h2 : sampleVariance [lq, lq] = some 0 := by
      rw [sampleVariance_pair]
      simp
    rw [selectedIndexR_eq h1 h2, if_neg (lt_irrefl 0), if_neg (lt_irrefl 0)]
    rfl

end DebruijnTp
